import Mathlib

/-!
Verification of pinguim-editor's history and highlighter cores.

This file gives a shallow embedding of the two algorithmic modules of the
pinguim-editor repository — `src/history.js` (class `History`) and
`src/highlighter.js` (class `Highlighter`) — and proves or refutes the
specification claims about them.

Modelling conventions for the JavaScript semantics involved:

* A JS number is modelled as `Option ℚ`: `none` is `NaN`, `some q` a finite
  value.  (`±Infinity` and the `-0`/`+0` distinction are outside the model;
  no claim depends on them.)  Comparisons with `NaN` are false, `x | 0`
  performs `ToInt32` (truncate toward zero, wrap into `[-2^31, 2^31)`).
* Strings are `List Char` (JS indices are code-unit positions; `List Char`
  with `Nat` indices plays that role).
* Dynamically-typed values reaching `History.import` are modelled by the
  inductive `JSValue` (undefined, null, booleans, numbers, strings, arrays,
  plain objects as association lists with distinct keys).
-/

namespace Pinguim

/-- A JavaScript number: `none` is `NaN`. -/
def JSNum : Type := Option ℚ

instance : DecidableEq JSNum := by unfold JSNum; infer_instance

instance : Repr JSNum := by unfold JSNum; infer_instance

/-- Truncation toward zero of a rational (the integer part used by
`ToInt32` / `ToIntegerOrInfinity`). -/
def ratTrunc (q : ℚ) : Int := if 0 ≤ q then ⌊q⌋ else ⌈q⌉

/-- The ECMAScript `ToInt32` conversion (`x | 0` on a number):
`NaN` becomes `0`, otherwise truncate toward zero and wrap into
`[-2^31, 2^31)`. -/
def toInt32 : JSNum → Int
  | none => 0
  | some q => (ratTrunc q + 2 ^ 31) % 2 ^ 32 - 2 ^ 31

/-- ECMAScript `ToIntegerOrInfinity` on our (finite or NaN) numbers. -/
def toIntOr0 : JSNum → Int
  | none => 0
  | some q => ratTrunc q

/-- JS `<` between numbers: false whenever an operand is `NaN`. -/
def jlt : JSNum → JSNum → Bool
  | some a, some b => a < b
  | _, _ => false

/-- JS `>` between numbers: false whenever an operand is `NaN`. -/
def jgt : JSNum → JSNum → Bool
  | some a, some b => b < a
  | _, _ => false

/-- JS `==` between a number and a nonnegative integer (used where the code
compares `selectionStart == index`): false for `NaN`. -/
def jeqNat (a : JSNum) (k : Nat) : Bool :=
  match a with
  | some q => q = (k : ℚ)
  | none => false

/-- JS `<=` between a number and a nonnegative integer: false for `NaN`. -/
def jleNat (a : JSNum) (k : Nat) : Bool :=
  match a with
  | some q => q ≤ (k : ℚ)
  | none => false

/-- JS `+` on numbers (`NaN` propagates). -/
def jadd : JSNum → JSNum → JSNum
  | some a, some b => some (a + b)
  | _, _ => none

/-- Embed a `Nat` (e.g. a string length) as a JS number. -/
def jofNat (n : Nat) : JSNum := some (n : ℚ)

/-- Dynamically-typed JavaScript values, as far as `History.import` can
observe them.  Objects are association lists of own enumerable properties
(real JS objects have distinct keys; lookup takes the first binding). -/
inductive JSValue where
  | jsUndefined : JSValue
  | null : JSValue
  | bool : Bool → JSValue
  | num : JSNum → JSValue
  | str : List Char → JSValue
  | arr : List JSValue → JSValue
  | obj : List (String × JSValue) → JSValue

/-- Property access `v.k`: defined on objects, `undefined` elsewhere
(in particular on arrays, whose only own properties are indices and
`length`, neither of which the history code reads through this path). -/
def getProp : JSValue → String → JSValue
  | .obj fields, k => (((fields.find? (fun p => p.1 = k)).map Prod.snd).getD .jsUndefined)
  | _, _ => .jsUndefined

/-- `typeof v == 'object' && v !== null`: true exactly for plain objects and
arrays (the only `'object'`-typed values in the model besides `null`). -/
def isObjV : JSValue → Bool
  | .obj _ => true
  | .arr _ => true
  | _ => false

/-- `typeof v == 'number'`. -/
def isNumberV : JSValue → Bool
  | .num _ => true
  | _ => false

/-- `typeof v == 'string'`. -/
def isStringV : JSValue → Bool
  | .str _ => true
  | _ => false

/-- `v instanceof Array`. -/
def isArrayV : JSValue → Bool
  | .arr _ => true
  | _ => false

/-! ## The History data model (`src/history.js`) -/

/-- One history entry (a patch) as stored internally: after validation every
stored entry has a number `start` and string `oldText`/`newText`.
(`History.import` copies each incoming entry with `Object.assign({}, e)`;
fields other than these three are never read by any `History` operation, so
the model keeps just the three.) -/
structure Entry where
  start : JSNum
  oldText : List Char
  newText : List Char
deriving Repr, DecidableEq

/-- The `History` instance state.  `cursor` is a JS number that every
operation keeps integral (`0`, `++`, `--`, `| 0`), hence `Int`; `limit`
likewise (all claims concern positive integral limits). -/
structure History where
  cursor : Int
  entries : List Entry
  limit : Int
deriving Repr, DecidableEq

/-- `new History(limit)`: `this.limit = limit || 5000` (for an integral
limit, falsy means `0`). -/
def History.new (limit : Int) : History :=
  ⟨0, [], if limit = 0 then 5000 else limit⟩

/-- The text buffer / `HTMLTextAreaElement` surface the history mutates:
`value`, `selectionStart`, `selectionEnd`.  The selections are stored as the
numbers the code assigns (DOM clamping of assigned selections is outside the
model; no claim reads a selection after an apply). -/
structure Buffer where
  value : List Char
  selectionStart : JSNum
  selectionEnd : JSNum
deriving Repr, DecidableEq

/-- ECMAScript `String.prototype.substring (s, a, b)`: both arguments are
truncated, clamped into `[0, length]`, and swapped if out of order. -/
def jsSubstring (s : List Char) (a b : JSNum) : List Char :=
  let len := s.length
  let ia := min (max (toIntOr0 a) 0).toNat len
  let ib := min (max (toIntOr0 b) 0).toNat len
  ((s.take (max ia ib)).drop (min ia ib))

/-- `s.substring(a)` = `s.substring(a, length)`. -/
def jsSubstringFrom (s : List Char) (a : JSNum) : List Char :=
  jsSubstring s a (jofNat s.length)

/-- `History.apply(action, target)`: replace the `oldText.length`-character
run at `start` by `newText` and collapse the selection to just after the
inserted text. -/
def History.apply (action : Entry) (target : Buffer) : Buffer :=
  let endIdx := jadd action.start (jofNat action.oldText.length)
  let prev := jsSubstring target.value (jofNat 0) action.start
  let next := jsSubstringFrom target.value endIdx
  let newPosition := jadd action.start (jofNat action.newText.length)
  ⟨prev ++ action.newText ++ next, newPosition, newPosition⟩

/-- `History.applyRev(action, target)`: `apply` with `oldText` and `newText`
swapped. -/
def History.applyRev (action : Entry) (target : Buffer) : Buffer :=
  let endIdx := jadd action.start (jofNat action.newText.length)
  let prev := jsSubstring target.value (jofNat 0) action.start
  let next := jsSubstringFrom target.value endIdx
  let newPosition := jadd action.start (jofNat action.oldText.length)
  ⟨prev ++ action.oldText ++ next, newPosition, newPosition⟩

/-- Placeholder for `entries[i]` reads outside `0 ≤ i < length` (there the
source would dereference `undefined` and throw a `TypeError`; every claim
stays inside the invariant `0 ≤ cursor ≤ entries.length` where the read is
in range). -/
def Entry.dummy : Entry := ⟨some 0, [], []⟩

/-- `History.undo(target)`: if `cursor > 0`, decrement it and apply the entry
at the new cursor in reverse. -/
def History.undo (h : History) (target : Buffer) : History × Buffer :=
  if 0 < h.cursor then
    let c := h.cursor - 1
    (⟨c, h.entries, h.limit⟩,
      History.applyRev (h.entries.getD c.toNat Entry.dummy) target)
  else (h, target)

/-- `History.redo(target)`: if `cursor < entries.length`, apply the entry at
the cursor forward and increment the cursor. -/
def History.redo (h : History) (target : Buffer) : History × Buffer :=
  if h.cursor < h.entries.length then
    (⟨h.cursor + 1, h.entries, h.limit⟩,
      History.apply (h.entries.getD h.cursor.toNat Entry.dummy) target)
  else (h, target)

/-- `Array.prototype.splice(c)`'s actual start index: negative `c` counts
from the end, positive `c` is clamped to the length. -/
def jsSpliceStart (len : Nat) (c : Int) : Nat :=
  if c < 0 then (len + c).toNat else min c.toNat len

/-- `History.add(action)`: drop the redo tail (`entries.splice(cursor)`),
push the action, advance the cursor; then if `entries.length >= limit`,
remove the `entries.length - limit` oldest entries and decrement the cursor
by the same amount. -/
def History.add (h : History) (action : Entry) : History :=
  let kept := h.entries.take (jsSpliceStart h.entries.length h.cursor)
  let e1 := kept ++ [action]
  let c1 := h.cursor + 1
  if h.limit ≤ (e1.length : Int) then
    let newStart : Int := (e1.length : Int) - h.limit
    ⟨c1 - newStart, e1.drop newStart.toNat, h.limit⟩
  else
    ⟨c1, e1, h.limit⟩

/-- `History.reset()`. -/
def History.reset (h : History) : History := ⟨0, [], h.limit⟩

/-- The JS object a stored entry presents to `export()` (the object that was
shallow-copied on import / pushed by `add`). -/
def entryToJS (e : Entry) : JSValue :=
  .obj [("start", .num e.start), ("oldText", .str e.oldText),
        ("newText", .str e.newText)]

/-- `History.export()`: `{ cursor, entries }` as a JS value.  (At this level
the aliasing of the internal array is invisible; the reference-level model
for the aliasing claim is below.) -/
def History.exportJS (h : History) : JSValue :=
  .obj [("cursor", .num (some (h.cursor : ℚ))),
        ("entries", .arr (h.entries.map entryToJS))]

/-- The per-entry checks of `History.import`'s loop, in source order,
returning the message of the first `HistoryError` thrown for this entry. -/
def validateEntry (v : JSValue) : Option String :=
  if ¬ isObjV v then some "An entry is not a valid object"
  else if ¬ isNumberV (getProp v "start") then some "An entry start is not a number"
  else if ¬ isStringV (getProp v "oldText") then some "An entry oldText is not string"
  else if ¬ isStringV (getProp v "newText") then some "An entry newText is not string"
  else none

/-- The `for (const entry of data.entries)` validation loop. -/
def validateEntries : List JSValue → Option String
  | [] => none
  | v :: rest =>
    match validateEntry v with
    | some m => some m
    | none => validateEntries rest

/-- The value-copy `Object.assign({}, action)` of a validated entry, viewed
through the three fields the history reads. -/
def jsToEntry (v : JSValue) : Entry :=
  ⟨(match getProp v "start" with | .num n => n | _ => none),
   (match getProp v "oldText" with | .str s => s | _ => []),
   (match getProp v "newText" with | .str s => s | _ => [])⟩

/-- `History.import(data)`.  Every `throw` in the source precedes the first
assignment to `this`, so the translation returns `Except.error msg` without
a new state exactly when the source throws `new HistoryError(msg)` before
mutating anything; on success it returns the new state (`cursor = data.cursor | 0`,
`entries` value-copied). -/
def History.importJS (h : History) (data : JSValue) : Except String History :=
  if ¬ isObjV data then .error "Data is not a valid object"
  else
    match getProp data "cursor" with
    | .num c =>
      match getProp data "entries" with
      | .arr es =>
        (match validateEntries es with
         | some m => .error m
         | none =>
           if jlt c (some 0) || jgt c (jofNat es.length) then
             .error "Cursor is too far"
           else
             .ok ⟨toInt32 c, es.map jsToEntry, h.limit⟩)
      | _ => .error "Data entries are not an Array"
    | _ => .error "Data cursor is not a number"

/-- `import` as a state transformer: the state after a call that threw is the
state before it (all throws precede the mutations in the source). -/
def History.importRun (h : History) (data : JSValue) : History × Option String :=
  match h.importJS data with
  | .ok h' => (h', none)
  | .error m => (h, some m)

/-! ## Reference-level model of `export` aliasing

`export()` returns `{ cursor: this.cursor, entries: this.entries }` — the
internal array itself, not a copy.  Aliasing is invisible in the pure model
above, so the frame claim about snapshots is settled against this minimal
heap model: arrays live in a store, the history and each snapshot hold a
reference, `add` mutates the referenced array in place (`splice`/`push`),
`reset` rebinds `this.entries` to a fresh array. -/

/-- The array store: reference `r` denotes `arrays[r]`. -/
structure Store where
  arrays : List (List Entry)
deriving Repr, DecidableEq

/-- Dereference (reads of unallocated references do not occur). -/
def Store.read (st : Store) (r : Nat) : List Entry := st.arrays.getD r []

/-- In-place update of the array behind `r`. -/
def Store.write (st : Store) (r : Nat) (v : List Entry) : Store :=
  ⟨st.arrays.set r v⟩

/-- Allocate a fresh array. -/
def Store.alloc (st : Store) (v : List Entry) : Nat × Store :=
  (st.arrays.length, ⟨st.arrays ++ [v]⟩)

/-- `History` state at the reference level. -/
structure HistoryRef where
  cursor : Int
  entriesRef : Nat
  limit : Int
deriving Repr, DecidableEq

/-- The object `export()` returns: its `entries` field is the same array
reference the history holds. -/
structure Snapshot where
  cursor : Int
  entriesRef : Nat
deriving Repr, DecidableEq

/-- `export()` at the reference level. -/
def HistoryRef.exportRef (h : HistoryRef) : Snapshot := ⟨h.cursor, h.entriesRef⟩

/-- `add` at the reference level: `splice` and `push` mutate the array behind
`this.entries` in place, so the write goes through the existing reference. -/
def HistoryRef.addRef (h : HistoryRef) (st : Store) (action : Entry) :
    HistoryRef × Store :=
  let cur := st.read h.entriesRef
  let e1 := cur.take (jsSpliceStart cur.length h.cursor) ++ [action]
  let c1 := h.cursor + 1
  if h.limit ≤ (e1.length : Int) then
    let newStart : Int := (e1.length : Int) - h.limit
    (⟨c1 - newStart, h.entriesRef, h.limit⟩,
      st.write h.entriesRef (e1.drop newStart.toNat))
  else
    (⟨c1, h.entriesRef, h.limit⟩, st.write h.entriesRef e1)

/-- `reset` at the reference level: `this.entries = []` binds a fresh array;
the previously referenced array is unchanged. -/
def HistoryRef.resetRef (h : HistoryRef) (st : Store) : HistoryRef × Store :=
  let (r, st') := st.alloc []
  (⟨0, r, h.limit⟩, st')

/-! ## The Highlighter (`src/highlighter.js`)

The JS regex engine is external to the repository; a rule's compiled pattern
is modelled by its ECMAScript `[[RegExpMatcher]]` interface: an anchored
matcher `amatch s q`, returning `some (e, caps)` when the pattern matches
the slice `[q, e)` of `s` with inner capturing-group results `caps`
(real matchers always return `q ≤ e`), together with the number of inner
capturing groups and whether the flags make `test()` use `lastIndex`
(the `g`/`y` flags).  The constructor's composite
`new RegExp(alternatives.join('|'), flags)` is then ordered alternation of
the rules' patterns, each wrapped in one extra capturing group, and
`String.prototype.split` / `RegExp.prototype.test` are implemented on top
of this interface following their ECMAScript algorithms. -/

/-- The behaviour of one rule's `regex`. -/
structure RuleRegex where
  amatch : List Char → Nat → Option (Nat × List (Option (List Char)))
  groups : Nat
  global : Bool

/-- Bracket role direction. -/
inductive BracketDir where
  | opening : BracketDir
  | closing : BracketDir
deriving Repr, DecidableEq

/-- The optional `bracket: { name, direction }` of a rule. -/
structure BracketSpec where
  name : String
  direction : BracketDir
deriving Repr, DecidableEq

/-- One classification rule handed to the `Highlighter` constructor. -/
structure Rule where
  regex : RuleRegex
  className : String
  bracket : Option BracketSpec

/-- The slice `[a, b)` of a list (JS `substring` on in-range indices;
out-of-range ends are saturated, as JS slicing does). -/
def sliceCh (s : List Char) (a b : Nat) : List Char := (s.take b).drop a

/-- `undefined` paddings contributed to a split result by the capturing
groups of one non-matching alternative (its wrapper group plus its inner
groups). -/
def ruleNones (r : Rule) : List (Option (List Char)) :=
  List.replicate (r.regex.groups + 1) none

/-- The composite pattern's anchored matcher: try each rule's pattern at `q`
in construction order; the first that matches wins (ordered alternation at a
fixed start position).  The capture list is: `undefined` wrapper+inner slots
for skipped alternatives, then the matching rule's wrapper group (the whole
match), then its inner captures, then `undefined` slots for the remaining
alternatives. -/
def compositeMatch : List Rule → List Char → Nat →
    Option (Nat × List (Option (List Char)))
  | [], _, _ => none
  | r :: rest, s, q =>
    match r.regex.amatch s q with
    | some (e, caps) =>
      some (e, (some (sliceCh s q e) :: caps) ++ (rest.map ruleNones).flatten)
    | none =>
      match compositeMatch rest s q with
      | some (e, caps) => some (e, ruleNones r ++ caps)
      | none => none

/-- The loop of ECMAScript `String.prototype.split` with a regexp separator
(22.1.3.23): scan `q` from `p`; on an anchored match `[q, e)` with `e ≠ p`
emit the gap `[p, q)` and all capture values, and continue at `p = q = e`;
otherwise advance `q`; at the end emit the final gap `[p, size)`.
`e` is clamped into `[q, size]` (ECMA clamps to `size`; real matchers
guarantee `e ≥ q`, so the lower clamp is invisible).  The fuel only drives
termination: at `fuel = 2*size + 2` (the value `jsSplit` passes) it cannot
run out, since each step increases `2*q + (if p = q then 1 else 0)`. -/
def splitLoop (m : List Char → Nat → Option (Nat × List (Option (List Char))))
    (s : List Char) : Nat → Nat → Nat → List (Option (List Char))
  | 0, p, _ => [some (sliceCh s p s.length)]
  | fuel + 1, p, q =>
    if q < s.length then
      match m s q with
      | none => splitLoop m s fuel p (q + 1)
      | some (e0, caps) =>
        let e := min (max e0 q) s.length
        if e = p then splitLoop m s fuel p (q + 1)
        else some (sliceCh s p q) :: (caps ++ splitLoop m s fuel e e)
    else [some (sliceCh s p s.length)]

/-- `baseText.split(this.splitRegex)`. -/
def jsSplit (m : List Char → Nat → Option (Nat × List (Option (List Char))))
    (s : List Char) : List (Option (List Char)) :=
  splitLoop m s (2 * s.length + 2) 0 0

/-- Search a pattern anchored at successive positions `q, q+1, …` up to the
end of the string: the scan of `RegExpExec` for a non-sticky pattern. -/
def searchGo (am : List Char → Nat → Option (Nat × List (Option (List Char))))
    (s : List Char) : Nat → Nat → Option (Nat × Nat)
  | 0, _ => none
  | fuel + 1, q =>
    match am s q with
    | some (e, _) => some (q, e)
    | none => searchGo am s fuel (q + 1)

/-- First match of the pattern at a position `≥ start` (start and end). -/
def searchFrom (am : List Char → Nat → Option (Nat × List (Option (List Char))))
    (s : List Char) (start : Nat) : Option (Nat × Nat) :=
  searchGo am s (s.length + 1 - start) start

/-- `type.regex.test(piece)` together with the regex object's `lastIndex`
state (ECMA `RegExpExec`): with the `g` (or `y`) flag, the search starts at
`lastIndex`, a successful `test` sets `lastIndex` to the match end and a
failed one resets it to `0`; without the flag the search starts at `0` and
`lastIndex` is not consulted or changed. -/
def jsTest (r : RuleRegex) (lastIndex : Nat) (piece : List Char) : Bool × Nat :=
  if r.global then
    if piece.length < lastIndex then (false, 0)
    else
      match searchFrom r.amatch piece lastIndex with
      | some (_, e) => (true, e)
      | none => (false, 0)
  else
    ((searchFrom r.amatch piece 0).isSome, lastIndex)

/-- `this.types.find(type => type.regex.test(piece))`: try the rules in
order, threading each global rule's `lastIndex`; rules after the first hit
are not tested (their state is untouched). -/
def findRule : List (Rule × Nat) → List Char → Option Rule × List Nat
  | [], _ => (none, [])
  | (r, li) :: rest, piece =>
    let t := jsTest r.regex li piece
    if t.1 then (some r, t.2 :: rest.map Prod.snd)
    else
      let f := findRule rest piece
      (f.1, t.2 :: f.2)

/-- Output nodes appended to the target element: text nodes for unclassified
pieces, `<span class=...>` elements for classified ones (with the
`selected-bracket` marking as a flag), and the final `<br>`. -/
inductive Node where
  | text : List Char → Node
  | span : String → List Char → Bool → Node
  | br : Node
deriving Repr, DecidableEq

/-- The text content a node contributes to the target element. -/
def nodeText : Node → List Char
  | .text t => t
  | .span _ t _ => t
  | .br => []

/-- Add the `selected-bracket` class to a span. -/
def markNode : Node → Node
  | .span c t _ => .span c t true
  | n => n

/-- Mark the node at position `j` of the already-appended output (the source
holds the node object itself on the stack and mutates it; the model
addresses it by its position in the output list). -/
def markAt : List Node → Nat → List Node
  | [], _ => []
  | n :: rest, 0 => markNode n :: rest
  | n :: rest, j + 1 => n :: markAt rest j

/-- The per-pass bracket stacks `brackets`, keyed by group name.  A stack
entry is `(position of the opening node in the output, its isAtCursor)`;
the head of the list is the top of the stack. -/
def Stacks : Type := List (String × List (Nat × Bool))

instance : DecidableEq Stacks := by unfold Stacks; infer_instance

/-- `brackets[name] || []`. -/
def getStack (brackets : Stacks) (name : String) : List (Nat × Bool) :=
  (((brackets.find? (fun p => p.1 = name)).map Prod.snd).getD [])

/-- Assignment `brackets[name] = v`. -/
def setStack : Stacks → String → List (Nat × Bool) → Stacks
  | [], k, v => [(k, v)]
  | (k', v') :: rest, k, v =>
    if k' = k then (k, v) :: rest else (k', v') :: setStack rest k v

/-- The cursor test of `handleParens`:
`selectionStart == index && selectionEnd <= index + piece.length`. -/
def isAtCursor (selStart selEnd : JSNum) (index pieceLen : Nat) : Bool :=
  jeqNat selStart index && jleNat selEnd (index + pieceLen)

/-- `Highlighter.handleParens`: on an opening token push
`(node, isAtCursor)`; on a closing token pop, and if the stack was non-empty
and either side's `isAtCursor` holds, mark both the popped opening node and
the current token.  Returns the updated stacks, the updated already-appended
output, and the (possibly marked) current node. -/
def handleParens (selStart selEnd : JSNum) (piece : List Char)
    (br : BracketSpec) (brackets : Stacks) (index : Nat) (nodes : List Node)
    (child : Node) : Stacks × List Node × Node :=
  let isSelected := isAtCursor selStart selEnd index piece.length
  let stack := getStack brackets br.name
  match br.direction with
  | .opening =>
    (setStack brackets br.name ((nodes.length, isSelected) :: stack), nodes, child)
  | .closing =>
    match stack with
    | [] => (setStack brackets br.name [], nodes, child)
    | (j, prevSel) :: rest =>
      if prevSel || isSelected then
        (setStack brackets br.name rest, markAt nodes j, markNode child)
      else
        (setStack brackets br.name rest, nodes, child)

/-- The loop state of one `highlight` pass: output built so far, bracket
stacks, running `index`, and the rules' `lastIndex` states. -/
structure HLState where
  nodes : List Node
  brackets : Stacks
  index : Nat
  lastIdxs : List Nat

/-- One iteration of the `for (let piece of baseText.split(...))` loop:
skip `undefined`/empty pieces; classify by the first rule whose regex tests
true; emit a text node or a classified span, running bracket handling for
bracket rules; advance `index` by the piece length. -/
def hlStep (types : List Rule) (selStart selEnd : JSNum) (st : HLState)
    (piece? : Option (List Char)) : HLState :=
  match piece? with
  | none => st
  | some piece =>
    if piece = [] then st
    else
      let f := findRule (types.zip st.lastIdxs) piece
      match f.1 with
      | none =>
        ⟨st.nodes ++ [Node.text piece], st.brackets, st.index + piece.length, f.2⟩
      | some r =>
        let child := Node.span r.className piece false
        match r.bracket with
        | none =>
          ⟨st.nodes ++ [child], st.brackets, st.index + piece.length, f.2⟩
        | some br =>
          let h := handleParens selStart selEnd piece br st.brackets st.index
            st.nodes child
          ⟨h.2.1 ++ [h.2.2], h.1, st.index + piece.length, f.2⟩

/-- `Highlighter.highlight(inputElement, targetElement)`: split the buffer
text with the composite pattern, process each piece, and append the final
`<br>`.  Returns the produced children of the target element and the rules'
`lastIndex` states after the call (a fresh `Highlighter`'s states are all
`0`). -/
def highlight (types : List Rule) (lastIdxs : List Nat) (input : Buffer) :
    List Node × List Nat :=
  let pieces := jsSplit (compositeMatch types) input.value
  let st := pieces.foldl (hlStep types input.selectionStart input.selectionEnd)
    ⟨[], [], 0, lastIdxs⟩
  (st.nodes ++ [Node.br], st.lastIdxs)

/-! ## Derived notions used to state the claims -/

/-- The invariant of §3: `0 ≤ cursor ≤ entries.length` and
`entries.length ≤ limit`. -/
def HistoryInv (h : History) : Prop :=
  0 ≤ h.cursor ∧ h.cursor ≤ h.entries.length ∧ (h.entries.length : Int) ≤ h.limit

instance (h : History) : Decidable (HistoryInv h) := by
  unfold HistoryInv; infer_instance

/-- The entries array of an import payload (used to state the validation
conditions; meaningful once `data.entries` is an array). -/
def entriesOf (d : JSValue) : List JSValue :=
  match getProp d "entries" with
  | .arr l => l
  | _ => []

/-- The cursor number of an import payload (meaningful once `data.cursor`
is a number). -/
def cursorNumOf (d : JSValue) : JSNum :=
  match getProp d "cursor" with
  | .num n => n
  | _ => none

/-- Condition 4/5 of §4.1 for one entry, as a semantic predicate: the entry
is a non-null object with a number `start` and string `oldText`/`newText`. -/
def entryOKv (e : JSValue) : Bool :=
  isObjV e && isNumberV (getProp e "start") && isStringV (getProp e "oldText")
    && isStringV (getProp e "newText")

/-- Condition 6 of §4.1: `data.cursor < 0 || data.cursor > entries.length`
(JS comparisons, so false on a `NaN` cursor). -/
def cursorOutOfRange (d : JSValue) : Bool :=
  jlt (cursorNumOf d) (some 0) || jgt (cursorNumOf d) (jofNat (entriesOf d).length)

/-- All six validation conditions of §4.1 hold. -/
def validData (d : JSValue) : Bool :=
  isObjV d && isNumberV (getProp d "cursor") && isArrayV (getProp d "entries")
    && (entriesOf d).all entryOKv && !cursorOutOfRange d

/-- The first validation failure in the order the code checks: conditions
1–3, then the entries in order — each entry checked for objectness, then
`start`, `oldText`, `newText` — then the cursor range. -/
def importFirstError (d : JSValue) : Option String :=
  if ¬ isObjV d then some "Data is not a valid object"
  else if ¬ isNumberV (getProp d "cursor") then some "Data cursor is not a number"
  else if ¬ isArrayV (getProp d "entries") then some "Data entries are not an Array"
  else
    match (entriesOf d).findSome? validateEntry with
    | some m => some m
    | none => if cursorOutOfRange d then some "Cursor is too far" else none

/-- A canonical exported value `{ cursor, entries }` (the shape `export()`
produces and the round-trip claim quantifies over). -/
def mkExport (c : Int) (es : List Entry) : JSValue :=
  .obj [("cursor", .num (some (c : ℚ))), ("entries", .arr (es.map entryToJS))]

/-- A patch is applicable to a text: its `start` is the (natural) length of
some prefix, and the text carries exactly `oldText` at `start`.  Patches
produced by the orchestrator's `edit` (`oldText = content.substring(start, end)`)
have this form by construction. -/
def Applies (p : Entry) (s : List Char) : Prop :=
  ∃ st : Nat, p.start = jofNat st ∧ st + p.oldText.length ≤ s.length ∧
    (s.drop st).take p.oldText.length = p.oldText

/-- Every patch of the list is applicable at its turn (to the buffer text as
left by the previous patches). -/
def AppliesAll : List Entry → List Char → Prop
  | [], _ => True
  | p :: ps, s => Applies p s ∧ AppliesAll ps (History.apply p ⟨s, none, none⟩).value

/-- Apply a list of patches forward, in order. -/
def applyAll : List Entry → Buffer → Buffer
  | [], b => b
  | p :: ps, b => applyAll ps (History.apply p b)

/-- The §2 orchestration flow: for each patch in order, `history.add(patch)`
then apply it forward to the buffer. -/
def record : History → List Entry → Buffer → History × Buffer
  | h, [], b => (h, b)
  | h, p :: ps, b => record (h.add p) ps (History.apply p b)

/-- `n` successive `undo` calls. -/
def undoN : History → Buffer → Nat → History × Buffer
  | h, b, 0 => (h, b)
  | h, b, n + 1 =>
    let r := undoN h b n
    r.1.undo r.2

/-- `n` successive `redo` calls. -/
def redoN : History → Buffer → Nat → History × Buffer
  | h, b, 0 => (h, b)
  | h, b, n + 1 =>
    let r := h.redo b
    redoN r.1 r.2 n

/-- Concatenated text content of a node list (`textContent` of the filled
target element). -/
def textsOf (ns : List Node) : List Char := (ns.map nodeText).flatten

/-- Concatenation of the defined pieces of a split result. -/
def joinSome (ps : List (Option (List Char))) : List Char :=
  (ps.filterMap id).flatten

/-- A rule's pattern has no capturing groups of its own: its matcher never
reports inner captures. -/
def NoInnerCaps (r : Rule) : Prop :=
  ∀ s q e caps, r.regex.amatch s q = some (e, caps) → caps = []

/-- Anchored matcher for one literal character (e.g. the patterns `\(` and
`\)` of a bracket rule): matches exactly at positions holding that
character, with no capturing groups. -/
def charRegex (c : Char) : RuleRegex :=
  ⟨fun s q => if s.getD q ' ' = c ∧ q < s.length then some (q + 1, []) else none,
    0, false⟩

/-- The `"parens"` opening rule `{ regex: /\(/, bracket: {name: "parens",
direction: "opening"}, className: "punctuation" }` of concrete scenario 5. -/
def parenOpenRule : Rule :=
  ⟨charRegex '(', "punctuation", some ⟨"parens", BracketDir.opening⟩⟩

/-- The matching closing rule for `)` of concrete scenario 5. -/
def parenCloseRule : Rule :=
  ⟨charRegex ')', "punctuation", some ⟨"parens", BracketDir.closing⟩⟩

/-- A rule whose pattern is the two-character literal `ab` wrapped in a
capturing group — i.e. `/(a)b/` — used to witness that inner capturing
groups leak extra pieces into `String.prototype.split`'s output. -/
def innerCapRule : Rule :=
  ⟨⟨fun s q =>
      if s.getD q ' ' = 'a' ∧ s.getD (q + 1) ' ' = 'b' ∧ q + 1 < s.length then
        some (q + 2, [some ['a']])
      else none,
    1, false⟩, "k", none⟩

/-- The literal pattern `ab` with the `g` flag — `/ab/g` — whose `test`
consults and updates `lastIndex`. -/
def globalAbRule : Rule :=
  ⟨⟨fun s q =>
      if s.getD q ' ' = 'a' ∧ s.getD (q + 1) ' ' = 'b' ∧ q + 1 < s.length then
        some (q + 2, [])
      else none,
    0, true⟩, "k", none⟩

/-- The intermediate entries of `add` before eviction: redo tail discarded,
patch appended. -/
def addStage1 (h : History) (p : Entry) : List Entry :=
  h.entries.take h.cursor.toNat ++ [p]

/-! ## Basic lemmas -/

theorem getProp_obj_hit (k : String) (v : JSValue) (rest : List (String × JSValue)) :
    getProp (.obj ((k, v) :: rest)) k = v := by
  simp [getProp, List.find?]

theorem getProp_obj_miss (k k' : String) (v : JSValue)
    (rest : List (String × JSValue)) (hne : k' ≠ k) :
    getProp (.obj ((k', v) :: rest)) k = getProp (.obj rest) k := by
  simp [getProp, List.find?, hne]

theorem validateEntry_of_ok (e : JSValue) (he : entryOKv e = true) :
    validateEntry e = none := by
  simp only [entryOKv, Bool.and_eq_true] at he
  simp [validateEntry, he.1.1.1, he.1.1.2, he.1.2, he.2]

theorem validateEntries_of_ok (es : List JSValue)
    (hes : ∀ e ∈ es, entryOKv e = true) :
    validateEntries es = none := by
  induction es with
  | nil => rfl
  | cons e rest ih =>
    have h1 : validateEntry e = none :=
      validateEntry_of_ok e (hes e (by simp))
    simp [validateEntries, h1]
    exact ih fun x hx => hes x (by simp [hx])

/-! ## C10: a NaN cursor passes validation and imports as cursor 0 -/

/-- C10: for any history and any entries array all of whose elements are
well-formed entry objects, importing `{cursor: NaN, entries}` succeeds
(`typeof NaN == 'number'`, and `NaN < 0`, `NaN > length` are both false) and
stores cursor `NaN | 0 = 0`. -/
theorem importJS_nan_cursor (h : History) (es : List JSValue)
    (hes : ∀ e ∈ es, entryOKv e = true) :
    h.importJS (.obj [("cursor", .num none), ("entries", .arr es)]) =
      .ok ⟨0, es.map jsToEntry, h.limit⟩ := by
  have hc : getProp (.obj [("cursor", .num none), ("entries", .arr es)]) "cursor"
      = .num none := getProp_obj_hit _ _ _
  have he : getProp (.obj [("cursor", .num none), ("entries", .arr es)]) "entries"
      = .arr es := by
    rw [getProp_obj_miss _ _ _ _ (by decide)]
    exact getProp_obj_hit _ _ _
  simp only [History.importJS, hc, he, isObjV, Bool.not_true, validateEntries_of_ok es hes]
  rfl

/-- Witness for C10 at a concrete input. -/
theorem importJS_nan_cursor_witness :
    (∀ e ∈ [JSValue.obj [("start", .num (some 4)), ("oldText", .str []),
        ("newText", .str ['a'])]], entryOKv e = true) ∧
    (History.new 0).importJS (.obj [("cursor", .num none),
        ("entries", .arr [JSValue.obj [("start", .num (some 4)),
          ("oldText", .str []), ("newText", .str ['a'])]])]) =
      .ok ⟨0, [⟨some 4, [], ['a']⟩], 5000⟩ :=
  ⟨by decide, importJS_nan_cursor (History.new 0) _ (by decide)⟩

/-! ## C2: add discards the redo tail, appends, then evicts from the front -/

/-- C2: on a history with positive limit satisfying the cursor invariant,
`add` first discards the entries at indices `≥ cursor`, appends the patch
and advances the cursor; then, whenever the entry count reaches or exceeds
the limit, it drops the `length − limit` oldest entries (keeping the
`limit` most-recent ones, i.e. a suffix of the appended stage) and
decrements the cursor by the same amount, which never takes it below 0.
In particular, with limit 2 and four patches with starts 4, 13, 20, 10,
the result holds exactly the 3rd and 4th patches with cursor 2. -/
theorem add_spec (h : History) (p : Entry)
    (hc0 : 0 ≤ h.cursor) (hcl : h.cursor ≤ h.entries.length) (hL : 1 ≤ h.limit) :
    (((addStage1 h p).length : Int) < h.limit →
        h.add p = ⟨h.cursor + 1, addStage1 h p, h.limit⟩) ∧
    (h.limit ≤ ((addStage1 h p).length : Int) →
        h.add p = ⟨h.limit,
          (addStage1 h p).drop ((addStage1 h p).length - h.limit.toNat),
          h.limit⟩) ∧
    0 ≤ (h.add p).cursor ∧
    (h.add p).entries.length = min (addStage1 h p).length h.limit.toNat ∧
    ((((History.new 2).add ⟨some 4, [], ['i', 'd']⟩).add
        ⟨some 13, [';'], []⟩).add
        ⟨some 20, ['t', 'r', 'u', 'e'], ['i', 'd']⟩).add
        ⟨some 10, ['y'], ['x']⟩ =
      ⟨2, [⟨some 20, ['t', 'r', 'u', 'e'], ['i', 'd']⟩,
           ⟨some 10, ['y'], ['x']⟩], 2⟩ := by
  have hsplice : jsSpliceStart h.entries.length h.cursor = h.cursor.toNat := by
    unfold jsSpliceStart
    rw [if_neg (by omega)]
    omega
  have hlen1 : (addStage1 h p).length = h.cursor.toNat + 1 := by
    unfold addStage1
    simp [List.length_take]
    omega
  have hadd : h.add p =
      (if h.limit ≤ ((addStage1 h p).length : Int) then
        (⟨h.cursor + 1 - (((addStage1 h p).length : Int) - h.limit),
          (addStage1 h p).drop (((addStage1 h p).length : Int) - h.limit).toNat,
          h.limit⟩ : History)
      else ⟨h.cursor + 1, addStage1 h p, h.limit⟩) := by
    unfold History.add addStage1
    rw [hsplice]
  refine ⟨?_, ?_, ?_, ?_, by decide⟩
  · intro hlt
    rw [hadd, if_neg (by omega)]
  · intro hge
    rw [hadd, if_pos hge]
    have h1 : h.cursor + 1 - (((addStage1 h p).length : Int) - h.limit) = h.limit := by
      omega
    have h2 : (((addStage1 h p).length : Int) - h.limit).toNat =
        (addStage1 h p).length - h.limit.toNat := by
      omega
    rw [h1, h2]
  · rw [hadd]
    split <;> simp <;> omega
  · rw [hadd]
    split
    · simp [List.length_drop]
      omega
    · simp
      omega

/-- Witness for C2 at a concrete input. -/
theorem add_spec_witness :
    (0 : Int) ≤ (History.new 2).cursor ∧
    (History.new 2).cursor ≤ (History.new 2).entries.length ∧
    (1 : Int) ≤ (History.new 2).limit ∧
    (History.new 2).add ⟨some 4, [], ['i', 'd']⟩ =
      ⟨1, [⟨some 4, [], ['i', 'd']⟩], 2⟩ :=
  ⟨by decide, by decide, by decide,
    (add_spec (History.new 2) ⟨some 4, [], ['i', 'd']⟩ (by decide) (by decide)
      (by decide)).1 (by decide)⟩

/-! ## C5: bracket marks are assigned only in matched pairs -/

/-- C5: `handleParens` marks brackets only in matched pairs.  An opening
token only pushes itself (with its cursor flag) and never marks anything; a
closing token with an empty group stack changes nothing; a closing token
that pops `(j, prevSel)` marks both the popped opening node and itself
exactly when `prevSel` or its own cursor test holds (the cursor test being
`selectionStart == index && selectionEnd <= index + piece.length`).  Over
`"(a(b)c)"` with selection `(0,0)` and the `"parens"` group, exactly the
outer pair is marked. -/
theorem handleParens_spec :
    (∀ (ss se : JSNum) (piece : List Char) (br : BracketSpec) (bks : Stacks)
        (index : Nat) (nodes : List Node) (child : Node),
      br.direction = BracketDir.opening →
      handleParens ss se piece br bks index nodes child =
        (setStack bks br.name
          ((nodes.length, isAtCursor ss se index piece.length) ::
            getStack bks br.name), nodes, child)) ∧
    (∀ (ss se : JSNum) (piece : List Char) (br : BracketSpec) (bks : Stacks)
        (index : Nat) (nodes : List Node) (child : Node),
      br.direction = BracketDir.closing →
      getStack bks br.name = [] →
      handleParens ss se piece br bks index nodes child =
        (setStack bks br.name [], nodes, child)) ∧
    (∀ (ss se : JSNum) (piece : List Char) (br : BracketSpec) (bks : Stacks)
        (index : Nat) (nodes : List Node) (child : Node) (j : Nat)
        (prevSel : Bool) (rest : List (Nat × Bool)),
      br.direction = BracketDir.closing →
      getStack bks br.name = (j, prevSel) :: rest →
      handleParens ss se piece br bks index nodes child =
        (if prevSel || isAtCursor ss se index piece.length then
          (setStack bks br.name rest, markAt nodes j, markNode child)
        else (setStack bks br.name rest, nodes, child))) ∧
    (highlight [parenOpenRule, parenCloseRule] [0, 0]
        ⟨"(a(b)c)".toList, some 0, some 0⟩).1 =
      [.span "punctuation" ['('] true, .text ['a'],
       .span "punctuation" ['('] false, .text ['b'],
       .span "punctuation" [')'] false, .text ['c'],
       .span "punctuation" [')'] true, .br] := by
  refine ⟨?_, ?_, ?_, by decide⟩
  · intro ss se piece br bks index nodes child hdir
    unfold handleParens
    rw [hdir]
  · intro ss se piece br bks index nodes child hdir hstack
    unfold handleParens
    rw [hdir, hstack]
  · intro ss se piece br bks index nodes child j prevSel rest hdir hstack
    unfold handleParens
    rw [hdir, hstack]

/-- Witness for C5 at concrete inputs (a closing token popping a selected
opening entry marks both nodes). -/
theorem handleParens_spec_witness :
    (BracketSpec.mk "parens" BracketDir.closing).direction = BracketDir.closing ∧
    getStack [("parens", [(0, true)])] "parens" = [(0, true)] ∧
    handleParens (some 0) (some 0) [')'] ⟨"parens", BracketDir.closing⟩
        [("parens", [(0, true)])] 4 [Node.span "punctuation" ['('] false]
        (Node.span "punctuation" [')'] false) =
      (if true || isAtCursor (some 0) (some 0) 4 1 then
        ([("parens", [])], markAt [Node.span "punctuation" ['('] false] 0,
          markNode (Node.span "punctuation" [')'] false))
      else ([("parens", [])], [Node.span "punctuation" ['('] false],
        Node.span "punctuation" [')'] false)) :=
  ⟨by decide, by decide,
    handleParens_spec.2.2.1 (some 0) (some 0) [')'] ⟨"parens", BracketDir.closing⟩
      [("parens", [(0, true)])] 4 [Node.span "punctuation" ['('] false]
      (Node.span "punctuation" [')'] false) 0 true [] (by decide) (by decide)⟩

/-! ## C8: export aliases the internal entries array (claim corrected) -/

/-- C8 counterexample: from a fresh history (store holds one empty array at
reference 0), take a snapshot with `export()`, then `add` a patch: reading
the snapshot's entries reference now yields the mutated array, not the
value it held at export time — the snapshot is an alias, not a copy. -/
theorem export_alias_counterexample :
    ((HistoryRef.addRef ⟨0, 0, 5000⟩ ⟨[[]]⟩ ⟨some 4, [], []⟩).2).read
        (HistoryRef.exportRef ⟨0, 0, 5000⟩).entriesRef ≠
      Store.read ⟨[[]]⟩ (HistoryRef.exportRef ⟨0, 0, 5000⟩).entriesRef := by
  decide

/-- C8 amended: `export()` returns `{cursor, entries}` with `entries` the
internal array itself.  Hence (1) the snapshot and the history share one
reference; (2) after `add` (which splices/pushes in place) the snapshot
reads the history's new entries; (3) writing through the snapshot's
reference is seen by the history; (4) `reset` rebinds `this.entries` to a
fresh array, so it neither disturbs the array an older snapshot references
nor leaves the history sharing with it. -/
theorem export_alias_spec (h : HistoryRef) (st : Store) (p : Entry)
    (v : List Entry) (href : h.entriesRef < st.arrays.length) :
    (h.exportRef).entriesRef = h.entriesRef ∧
    ((h.addRef st p).2).read (h.exportRef).entriesRef =
      ((h.addRef st p).2).read ((h.addRef st p).1).entriesRef ∧
    (st.write (h.exportRef).entriesRef v).read h.entriesRef = v ∧
    ((h.resetRef st).2).read (h.exportRef).entriesRef = st.read h.entriesRef ∧
    ((h.resetRef st).1).entriesRef ≠ h.entriesRef := by
  refine ⟨rfl, ?_, ?_, ?_, ?_⟩
  · have h1 : ((h.addRef st p).1).entriesRef = h.entriesRef := by
      simp only [HistoryRef.addRef]
      split <;> rfl
    rw [h1]
    rfl
  · unfold Store.write Store.read HistoryRef.exportRef
    simp [List.getD_eq_getElem?_getD, List.getElem?_set_self, href]
  · show Store.read ⟨st.arrays ++ [[]]⟩ h.entriesRef = st.read h.entriesRef
    unfold Store.read
    rw [List.getD_append _ _ _ _ href]
  · show st.arrays.length ≠ h.entriesRef
    omega

/-- Witness for C8's amended theorem at a concrete input. -/
theorem export_alias_spec_witness :
    (0 : Nat) < (Store.arrays ⟨[[]]⟩).length ∧
    ((HistoryRef.resetRef ⟨0, 0, 5000⟩ ⟨[[]]⟩).1).entriesRef ≠ 0 :=
  ⟨by decide,
    (export_alias_spec ⟨0, 0, 5000⟩ ⟨[[]]⟩ ⟨some 4, [], []⟩ [] (by decide)).2.2.2.2⟩

/-! ## C9: highlight determinism and the global-flag statefulness -/

theorem findRule_snd_nonglobal (prs : List (Rule × Nat)) (piece : List Char)
    (hg : ∀ pr ∈ prs, pr.1.regex.global = false) :
    (findRule prs piece).2 = prs.map Prod.snd := by
  induction prs with
  | nil => rfl
  | cons pr rest ih =>
    obtain ⟨r, li⟩ := pr
    have hr : r.regex.global = false := hg (r, li) (by simp)
    have ihr := ih fun x hx => hg x (by simp [hx])
    simp only [findRule, jsTest, hr, Bool.false_eq_true, if_false, List.map_cons]
    split
    · rfl
    · simp [ihr]

theorem findRule_fst_nonglobal (rs : List Rule) (l1 l2 : List Nat)
    (piece : List Char) (hg : ∀ r ∈ rs, r.regex.global = false)
    (h1 : l1.length = rs.length) (h2 : l2.length = rs.length) :
    (findRule (rs.zip l1) piece).1 = (findRule (rs.zip l2) piece).1 := by
  induction rs generalizing l1 l2 with
  | nil => simp [List.zip_nil_left, findRule]
  | cons r rest ih =>
    cases l1 with
    | nil => simp at h1
    | cons a as =>
      cases l2 with
      | nil => simp at h2
      | cons b bs =>
        have hr : r.regex.global = false := hg r (by simp)
        simp only [List.length_cons, Nat.succ.injEq] at h1 h2
        have := ih as bs (fun x hx => hg x (by simp [hx])) h1 h2
        simp only [List.zip_cons_cons, findRule, jsTest, hr, Bool.false_eq_true,
          if_false]
        split
        · rfl
        · exact this

theorem hlStep_lastIdxs (types : List Rule) (lis : List Nat) (ss se : JSNum)
    (hg : ∀ r ∈ types, r.regex.global = false)
    (hlen : lis.length = types.length) (st : HLState)
    (hst : st.lastIdxs = lis) (piece? : Option (List Char)) :
    (hlStep types ss se st piece?).lastIdxs = lis := by
  have key : (findRule (types.zip lis) (piece?.getD [])).2 = lis := by
    rw [findRule_snd_nonglobal _ _ (fun pr hpr => hg pr.1 (List.of_mem_zip hpr).1)]
    exact List.map_snd_zip _ _ (le_of_eq hlen)
  cases piece? with
  | none => exact hst
  | some piece =>
    have key' : (findRule (types.zip st.lastIdxs) piece).2 = lis := by
      rw [hst]
      rw [findRule_snd_nonglobal _ _ (fun pr hpr => hg pr.1 (List.of_mem_zip hpr).1)]
      exact List.map_snd_zip _ _ (le_of_eq hlen)
    by_cases hp : piece = []
    · simp [hlStep, hp, hst]
    · simp only [hlStep, hp, if_false]
      split
      · exact key'
      · split
        · exact key'
        · exact key'

theorem foldl_hlStep_lastIdxs (types : List Rule) (lis : List Nat)
    (ss se : JSNum) (hg : ∀ r ∈ types, r.regex.global = false)
    (hlen : lis.length = types.length) (pieces : List (Option (List Char)))
    (st : HLState) (hst : st.lastIdxs = lis) :
    (pieces.foldl (hlStep types ss se) st).lastIdxs = lis := by
  induction pieces generalizing st with
  | nil => exact hst
  | cons piece rest ih =>
    exact ih _ (hlStep_lastIdxs types lis ss se hg hlen st hst piece)

/-- C9 amended: `highlight` is deterministic across calls for rule sets in
which no pattern carries the `g` (or `y`) flag: such a call leaves every
rule's `lastIndex` untouched, so a second call on the same instance with
the same buffer and selection produces the identical output.  (With a
global-flagged rule this fails; see the counterexample.) -/
theorem highlight_deterministic (types : List Rule) (lis : List Nat)
    (b : Buffer) (hg : ∀ r ∈ types, r.regex.global = false)
    (hlen : lis.length = types.length) :
    (highlight types lis b).2 = lis ∧
    (highlight types ((highlight types lis b).2) b).1 =
      (highlight types lis b).1 := by
  have h2 : (highlight types lis b).2 = lis := by
    unfold highlight
    exact foldl_hlStep_lastIdxs types lis _ _ hg hlen _ _ rfl
  exact ⟨h2, by rw [h2]⟩

/-- Witness for C9's amended theorem at a concrete input. -/
theorem highlight_deterministic_witness :
    (∀ r ∈ [parenOpenRule, parenCloseRule], r.regex.global = false) ∧
    (highlight [parenOpenRule, parenCloseRule]
        ((highlight [parenOpenRule, parenCloseRule] [0, 0]
          ⟨"(a(b)c)".toList, some 0, some 0⟩).2)
        ⟨"(a(b)c)".toList, some 0, some 0⟩).1 =
      (highlight [parenOpenRule, parenCloseRule] [0, 0]
        ⟨"(a(b)c)".toList, some 0, some 0⟩).1 :=
  ⟨by decide,
    (highlight_deterministic [parenOpenRule, parenCloseRule] [0, 0]
      ⟨"(a(b)c)".toList, some 0, some 0⟩ (by decide) (by decide)).2⟩

/-- C9 counterexample: with the single rule `/ab/g` over the buffer `"ab"`,
the first `highlight` call classifies the piece `"ab"` (and leaves the
rule's `lastIndex` at 2), while the second identical call fails the
`test` — whose search now starts at `lastIndex` 2 — and emits a plain text
node: the two outputs differ. -/
theorem highlight_global_flag_counterexample :
    (highlight [globalAbRule]
        ((highlight [globalAbRule] [0] ⟨['a', 'b'], some 0, some 0⟩).2)
        ⟨['a', 'b'], some 0, some 0⟩).1 ≠
      (highlight [globalAbRule] [0] ⟨['a', 'b'], some 0, some 0⟩).1 := by
  decide

/-! ## C4: text preservation of the tokenizer -/

theorem sliceCh_eq_take_drop (s : List Char) (a b : Nat) :
    sliceCh s a b = (s.drop a).take (b - a) := by
  unfold sliceCh
  rw [List.drop_take]

theorem sliceCh_append_sliceCh (s : List Char) (a b c : Nat)
    (hab : a ≤ b) (hbc : b ≤ c) :
    sliceCh s a b ++ sliceCh s b c = sliceCh s a c := by
  rw [sliceCh_eq_take_drop, sliceCh_eq_take_drop, sliceCh_eq_take_drop]
  have hdrop : s.drop b = (s.drop a).drop (b - a) := by
    rw [List.drop_drop]
    congr 1
    omega
  rw [hdrop, ← List.take_add]
  congr 1
  omega

theorem sliceCh_to_length (s : List Char) (p : Nat) :
    sliceCh s p s.length = s.drop p := by
  unfold sliceCh
  rw [List.take_length]

theorem sliceCh_clamp (s : List Char) (q e0 : Nat) :
    sliceCh s q e0 = sliceCh s q (min (max e0 q) s.length) := by
  rcases le_total e0 q with h | h
  · rw [sliceCh_eq_take_drop, sliceCh_eq_take_drop]
    have h1 : e0 - q = 0 := by omega
    have h2 : min (max e0 q) s.length - q = min q s.length - q := by omega
    rw [h1, h2]
    rcases le_total q s.length with hq | hq
    · have : min q s.length - q = 0 := by omega
      rw [this]
    · have : min q s.length - q = 0 := by omega
      rw [this]
  · rcases le_total e0 s.length with he | he
    · congr 1
      omega
    · rw [sliceCh_eq_take_drop, sliceCh_eq_take_drop]
      have h2 : min (max e0 q) s.length = s.length := by omega
      rw [h2]
      have hlen : (s.drop q).length = s.length - q := List.length_drop ..
      rw [List.take_of_length_le (by omega), List.take_of_length_le (by omega)]

theorem joinSome_append (a b : List (Option (List Char))) :
    joinSome (a ++ b) = joinSome a ++ joinSome b := by
  unfold joinSome
  rw [List.filterMap_append, List.flatten_append]

theorem joinSome_of_all_none (l : List (Option (List Char)))
    (h : ∀ x ∈ l, x = none) : joinSome l = [] := by
  unfold joinSome
  have : l.filterMap id = [] := by
    rw [List.filterMap_eq_nil_iff]
    intro x hx
    rw [h x hx]
    rfl
  rw [this]
  rfl

theorem ruleNones_all_none (r : Rule) : ∀ x ∈ ruleNones r, x = none := by
  intro x hx
  unfold ruleNones at hx
  exact List.eq_of_mem_replicate hx

theorem compositeMatch_join (types : List Rule)
    (hcaps : ∀ r ∈ types, NoInnerCaps r) (s : List Char) (q e : Nat)
    (caps : List (Option (List Char)))
    (hm : compositeMatch types s q = some (e, caps)) :
    joinSome caps = sliceCh s q e := by
  induction types generalizing caps with
  | nil => exact absurd hm (by simp [compositeMatch])
  | cons r rest ih =>
    have hpad : joinSome ((rest.map ruleNones).flatten) = [] := by
      apply joinSome_of_all_none
      intro x hx
      rw [List.mem_flatten] at hx
      obtain ⟨l, hl, hxl⟩ := hx
      rw [List.mem_map] at hl
      obtain ⟨r', _, hr'⟩ := hl
      exact ruleNones_all_none r' x (by rw [hr']; exact hxl)
    unfold compositeMatch at hm
    cases hr : r.regex.amatch s q with
    | some p =>
      obtain ⟨e0, caps0⟩ := p
      rw [hr] at hm
      have hc0 : caps0 = [] := hcaps r (by simp) s q e0 caps0 hr
      subst hc0
      simp only [Option.some.injEq, Prod.mk.injEq] at hm
      obtain ⟨he, hcapseq⟩ := hm
      subst he
      rw [← hcapseq]
      rw [show ((some (sliceCh s q e0) :: ([] : List (Option (List Char)))) ++
          (rest.map ruleNones).flatten) =
        [some (sliceCh s q e0)] ++ (rest.map ruleNones).flatten from rfl]
      rw [joinSome_append, hpad, List.append_nil]
      simp [joinSome]
    | none =>
      rw [hr] at hm
      cases hrec : compositeMatch rest s q with
      | none => rw [hrec] at hm; exact absurd hm (by simp)
      | some p =>
        obtain ⟨e1, caps1⟩ := p
        rw [hrec] at hm
        simp only [Option.some.injEq, Prod.mk.injEq] at hm
        obtain ⟨he, hcapseq⟩ := hm
        subst he
        rw [← hcapseq, joinSome_append,
          joinSome_of_all_none _ (ruleNones_all_none r), List.nil_append]
        exact ih (fun x hx => hcaps x (by simp [hx])) caps1 hrec

theorem splitLoop_join (m : List Char → Nat → Option (Nat × List (Option (List Char))))
    (s : List Char)
    (hm : ∀ q e caps, m s q = some (e, caps) →
      joinSome caps = sliceCh s q (min (max e q) s.length)) :
    ∀ (fuel p q : Nat), p ≤ q → q ≤ s.length →
      joinSome (splitLoop m s fuel p q) = s.drop p := by
  intro fuel
  induction fuel with
  | zero =>
    intro p q hpq hq
    unfold splitLoop
    rw [show joinSome [some (sliceCh s p s.length)] = sliceCh s p s.length by
      simp [joinSome]]
    exact sliceCh_to_length s p
  | succ fuel ih =>
    intro p q hpq hq
    unfold splitLoop
    by_cases hqs : q < s.length
    · rw [if_pos hqs]
      cases hms : m s q with
      | none => exact ih p (q + 1) (by omega) (by omega)
      | some pr =>
        obtain ⟨e0, caps⟩ := pr
        simp only
        by_cases hep : min (max e0 q) s.length = p
        · rw [if_pos hep]
          exact ih p (q + 1) (by omega) (by omega)
        · rw [if_neg hep]
          have hqe : q ≤ min (max e0 q) s.length := by omega
          have hes : min (max e0 q) s.length ≤ s.length := by omega
          rw [show (some (sliceCh s p q) :: (caps ++
              splitLoop m s fuel (min (max e0 q) s.length) (min (max e0 q) s.length)))
              = [some (sliceCh s p q)] ++ caps ++
                splitLoop m s fuel (min (max e0 q) s.length) (min (max e0 q) s.length)
              from by simp]
          rw [joinSome_append, joinSome_append]
          rw [show joinSome [some (sliceCh s p q)] = sliceCh s p q by simp [joinSome]]
          rw [hm q e0 caps hms]
          rw [ih _ _ (le_refl _) hes]
          rw [← sliceCh_to_length s (min (max e0 q) s.length)]
          rw [List.append_assoc]
          rw [sliceCh_append_sliceCh s q _ s.length hqe hes]
          rw [sliceCh_append_sliceCh s p q s.length (by omega) (by omega)]
          exact sliceCh_to_length s p
    · rw [if_neg hqs]
      rw [show joinSome [some (sliceCh s p s.length)] = sliceCh s p s.length by
        simp [joinSome]]
      exact sliceCh_to_length s p

theorem jsSplit_join (types : List Rule) (hcaps : ∀ r ∈ types, NoInnerCaps r)
    (s : List Char) :
    joinSome (jsSplit (compositeMatch types) s) = s := by
  unfold jsSplit
  rw [splitLoop_join (compositeMatch types) s ?_ _ 0 0 (le_refl 0) (Nat.zero_le _)]
  · rw [List.drop_zero]
  · intro q e caps hm
    rw [compositeMatch_join types hcaps s q e caps hm]
    exact sliceCh_clamp s q e

theorem nodeText_markNode (n : Node) : nodeText (markNode n) = nodeText n := by
  cases n <;> rfl

theorem markNode_ne_br (n : Node) (hn : n ≠ Node.br) : markNode n ≠ Node.br := by
  cases n <;> simp [markNode] at hn ⊢

theorem textsOf_markAt (ns : List Node) (j : Nat) :
    textsOf (markAt ns j) = textsOf ns := by
  induction ns generalizing j with
  | nil => rfl
  | cons n rest ih =>
    cases j with
    | zero => simp [markAt, textsOf, nodeText_markNode]
    | succ j => simp [markAt, textsOf] at ih ⊢; exact ih j

theorem markAt_br_free (ns : List Node) (j : Nat) (h : Node.br ∉ ns) :
    Node.br ∉ markAt ns j := by
  induction ns generalizing j with
  | nil => simp [markAt]
  | cons n rest ih =>
    cases j with
    | zero =>
      simp only [markAt, List.mem_cons, not_or] at h ⊢
      exact ⟨fun hc => markNode_ne_br n (Ne.symm h.1) hc.symm, h.2⟩
    | succ j =>
      simp only [markAt, List.mem_cons, not_or] at h ⊢
      exact ⟨h.1, ih j h.2⟩

theorem textsOf_append (a b : List Node) :
    textsOf (a ++ b) = textsOf a ++ textsOf b := by
  unfold textsOf
  rw [List.map_append, List.flatten_append]

theorem handleParens_texts (ss se : JSNum) (piece : List Char)
    (br : BracketSpec) (bks : Stacks) (index : Nat) (nodes : List Node)
    (child : Node) :
    textsOf (handleParens ss se piece br bks index nodes child).2.1 =
        textsOf nodes ∧
    nodeText (handleParens ss se piece br bks index nodes child).2.2 =
        nodeText child ∧
    (Node.br ∉ nodes →
      Node.br ∉ (handleParens ss se piece br bks index nodes child).2.1) ∧
    (child ≠ Node.br →
      (handleParens ss se piece br bks index nodes child).2.2 ≠ Node.br) := by
  unfold handleParens
  cases br.direction with
  | opening => exact ⟨rfl, rfl, fun h => h, fun h => h⟩
  | closing =>
    cases hstack : getStack bks br.name with
    | nil => exact ⟨rfl, rfl, fun h => h, fun h => h⟩
    | cons top rest =>
      obtain ⟨j, prevSel⟩ := top
      by_cases hsel : (prevSel || isAtCursor ss se index piece.length) = true
      · simp only [hsel, if_true]
        exact ⟨textsOf_markAt nodes j, nodeText_markNode child,
          fun h => markAt_br_free nodes j h, fun h => markNode_ne_br child h⟩
      · simp only [hsel, if_false]
        exact ⟨rfl, rfl, fun h => h, fun h => h⟩

theorem hlStep_texts (types : List Rule) (ss se : JSNum) (st : HLState)
    (piece? : Option (List Char)) :
    textsOf (hlStep types ss se st piece?).nodes =
        textsOf st.nodes ++ joinSome [piece?] ∧
    (Node.br ∉ st.nodes → Node.br ∉ (hlStep types ss se st piece?).nodes) := by
  cases piece? with
  | none =>
    constructor
    · rw [show joinSome [none] = [] from rfl, List.append_nil]
      rfl
    · exact fun h => h
  | some piece =>
    have hjoin : joinSome [some piece] = piece := by simp [joinSome]
    by_cases hp : piece = []
    · subst hp
      constructor
      · simp [hlStep, hjoin]
      · simp [hlStep]
    · simp only [hlStep, hp, if_false]
      cases hfind : (findRule (types.zip st.lastIdxs) piece).1 with
      | none =>
        constructor
        · simp [textsOf_append, hjoin, textsOf, nodeText]
        · intro h
          simp only [List.mem_append, not_or]
          exact ⟨h, by simp [Node.br]⟩
      | some r =>
        cases hbr : r.bracket with
        | none =>
          simp only [hbr]
          constructor
          · simp [textsOf_append, hjoin, textsOf, nodeText]
          · intro h
            simp only [List.mem_append, not_or]
            exact ⟨h, by simp⟩
        | some br =>
          simp only [hbr]
          have hpa := handleParens_texts ss se piece br st.brackets st.index
            st.nodes (Node.span r.className piece false)
          constructor
          · simp only [textsOf_append, hjoin]
            rw [hpa.1]
            congr 1
            rw [show textsOf [(handleParens ss se piece br st.brackets st.index
                st.nodes (Node.span r.className piece false)).2.2] =
              nodeText (handleParens ss se piece br st.brackets st.index
                st.nodes (Node.span r.className piece false)).2.2 ++ [] from by
                simp [textsOf]]
            rw [hpa.2.1]
            simp [nodeText]
          · intro h
            simp only [List.mem_append, not_or]
            refine ⟨hpa.2.2.1 h, ?_⟩
            have hne := hpa.2.2.2 (by simp)
            simp only [List.mem_singleton]
            exact fun hc => hne hc.symm

theorem foldl_hlStep_texts (types : List Rule) (ss se : JSNum)
    (pieces : List (Option (List Char))) (st : HLState) :
    textsOf ((pieces.foldl (hlStep types ss se) st).nodes) =
        textsOf st.nodes ++ joinSome pieces ∧
    (Node.br ∉ st.nodes →
      Node.br ∉ (pieces.foldl (hlStep types ss se) st).nodes) := by
  induction pieces generalizing st with
  | nil =>
    constructor
    · rw [show joinSome [] = [] from rfl, List.append_nil]
      rfl
    · exact fun h => h
  | cons piece rest ih =>
    have hstep := hlStep_texts types ss se st piece
    have hrec := ih (hlStep types ss se st piece)
    constructor
    · rw [List.foldl_cons, hrec.1, hstep.1]
      rw [show (piece :: rest) = [piece] ++ rest from rfl, joinSome_append,
        List.append_assoc]
    · intro h
      rw [List.foldl_cons]
      exact hrec.2 (hstep.2 h)

/-- C4 amended: for every buffer text, selection, `lastIndex` state, and
rule set whose patterns have no capturing groups of their own,
`highlight`'s output is (classified and unclassified) token nodes whose
texts concatenate back to exactly the buffer text, followed by exactly one
terminating `<br>` marker.  (With a capturing group inside a rule's
pattern, `String.prototype.split` also emits the inner captures and the
concatenation gains duplicated text; see the counterexample.) -/
theorem highlight_text_preservation (types : List Rule) (lis : List Nat)
    (b : Buffer) (hcaps : ∀ r ∈ types, NoInnerCaps r) :
    ∃ ns, (highlight types lis b).1 = ns ++ [Node.br] ∧
      Node.br ∉ ns ∧ textsOf ns = b.value := by
  refine ⟨((jsSplit (compositeMatch types) b.value).foldl
    (hlStep types b.selectionStart b.selectionEnd) ⟨[], [], 0, lis⟩).nodes,
    rfl, ?_, ?_⟩
  · exact (foldl_hlStep_texts types b.selectionStart b.selectionEnd _ _).2
      (by simp)
  · rw [(foldl_hlStep_texts types b.selectionStart b.selectionEnd _ _).1]
    rw [show textsOf ([] : List Node) = [] from rfl, List.nil_append]
    exact jsSplit_join types hcaps b.value

theorem charRegex_noInnerCaps (c : Char) (cls : String)
    (bk : Option BracketSpec) : NoInnerCaps ⟨charRegex c, cls, bk⟩ := by
  intro s q e caps h
  unfold charRegex at h
  simp only at h
  split at h
  · injection h with h
    injection h with h1 h2
    exact h2.symm
  · exact absurd h (by simp)

/-- Witness for C4's amended theorem at a concrete input. -/
theorem highlight_text_preservation_witness :
    (∀ r ∈ [parenOpenRule, parenCloseRule], NoInnerCaps r) ∧
    ∃ ns, (highlight [parenOpenRule, parenCloseRule] [0, 0]
        ⟨"(a(b)c)".toList, some 0, some 0⟩).1 = ns ++ [Node.br] ∧
      Node.br ∉ ns ∧ textsOf ns = "(a(b)c)".toList := by
  have hcaps : ∀ r ∈ [parenOpenRule, parenCloseRule], NoInnerCaps r := by
    intro r hr
    rcases List.mem_cons.1 hr with h | h
    · exact h ▸ charRegex_noInnerCaps '(' "punctuation" _
    · rcases List.mem_cons.1 h with h' | h'
      · exact h' ▸ charRegex_noInnerCaps ')' "punctuation" _
      · exact absurd h' (List.not_mem_nil r)
  exact ⟨hcaps, highlight_text_preservation [parenOpenRule, parenCloseRule]
    [0, 0] ⟨"(a(b)c)".toList, some 0, some 0⟩ hcaps⟩

/-- C4 counterexample: with the single rule `/(a)b/` (a capturing group
inside the pattern) over the buffer `"ab"`, the split also emits the inner
capture `"a"`, so the concatenated texts of the emitted pieces are `"aba"` —
not the buffer text. -/
theorem highlight_inner_group_counterexample :
    textsOf (highlight [innerCapRule] [0] ⟨['a', 'b'], some 0, some 0⟩).1 ≠
      ['a', 'b'] := by
  decide

/-! ## C1: import validation — error iff invalid, check order, transactionality -/

theorem validateEntry_none_iff (e : JSValue) :
    validateEntry e = none ↔ entryOKv e = true := by
  unfold validateEntry entryOKv
  split_ifs with h1 h2 h3 h4 <;> simp_all

theorem validateEntries_eq_findSome (es : List JSValue) :
    validateEntries es = es.findSome? validateEntry := by
  induction es with
  | nil => rfl
  | cons e rest ih =>
    unfold validateEntries
    rw [List.findSome?_cons]
    cases validateEntry e with
    | some m => rfl
    | none => exact ih

theorem importJS_eq (h : History) (d : JSValue) :
    h.importJS d = (match importFirstError d with
      | some m => Except.error m
      | none => Except.ok ⟨toInt32 (cursorNumOf d), (entriesOf d).map jsToEntry,
          h.limit⟩) := by
  by_cases h1 : isObjV d = true
  · cases hc : getProp d "cursor" with
    | num c =>
      cases he : getProp d "entries" with
      | arr es =>
        have hnum : cursorNumOf d = c := by unfold cursorNumOf; rw [hc]
        have hent : entriesOf d = es := by unfold entriesOf; rw [he]
        simp only [History.importJS, importFirstError, h1, hc, he, hnum, hent,
          isNumberV, isArrayV, Bool.not_true, Bool.false_eq_true, if_false,
          validateEntries_eq_findSome, not_false_eq_true, not_true_eq_false]
        cases hv : es.findSome? validateEntry with
        | some m => rfl
        | none =>
          simp only [cursorOutOfRange, hnum, hent]
          split <;> rfl
      | jsUndefined =>
        simp [History.importJS, importFirstError, h1, hc, he, isNumberV, isArrayV]
      | null =>
        simp [History.importJS, importFirstError, h1, hc, he, isNumberV, isArrayV]
      | bool b =>
        simp [History.importJS, importFirstError, h1, hc, he, isNumberV, isArrayV]
      | num n =>
        simp [History.importJS, importFirstError, h1, hc, he, isNumberV, isArrayV]
      | str s =>
        simp [History.importJS, importFirstError, h1, hc, he, isNumberV, isArrayV]
      | obj fields =>
        simp [History.importJS, importFirstError, h1, hc, he, isNumberV, isArrayV]
    | jsUndefined => simp [History.importJS, importFirstError, h1, hc, isNumberV]
    | null => simp [History.importJS, importFirstError, h1, hc, isNumberV]
    | bool b => simp [History.importJS, importFirstError, h1, hc, isNumberV]
    | str s => simp [History.importJS, importFirstError, h1, hc, isNumberV]
    | arr es => simp [History.importJS, importFirstError, h1, hc, isNumberV]
    | obj fields => simp [History.importJS, importFirstError, h1, hc, isNumberV]
  · simp [History.importJS, importFirstError, h1]

theorem importFirstError_none_iff (d : JSValue) :
    importFirstError d = none ↔ validData d = true := by
  unfold importFirstError validData
  by_cases h1 : isObjV d = true
  · by_cases h2 : isNumberV (getProp d "cursor") = true
    · by_cases h3 : isArrayV (getProp d "entries") = true
      · simp only [h1, h2, h3, not_true_eq_false, if_false, Bool.true_and]
        cases hv : (entriesOf d).findSome? validateEntry with
        | some m =>
          simp only []
          constructor
          · intro hcontr; exact absurd hcontr (by simp)
          · intro hall
            rw [Bool.and_eq_true] at hall
            have hnone : (entriesOf d).findSome? validateEntry = none := by
              rw [List.findSome?_eq_none_iff]
              intro x hx
              rw [validateEntry_none_iff]
              exact List.all_eq_true.1 hall.1 x hx
            rw [hnone] at hv
            exact absurd hv (by simp)
        | none =>
          simp only []
          have hall : (entriesOf d).all entryOKv = true := by
            rw [List.all_eq_true]
            intro x hx
            rw [← validateEntry_none_iff]
            exact List.findSome?_eq_none_iff.1 hv x hx
          rw [hall]
          by_cases h6 : cursorOutOfRange d = true
          · simp [h6]
          · simp [h6]
      · simp [h1, h2, h3]
    · simp [h1, h2]
  · simp [h1]

/-- C1 amended: `import` raises an error iff the data violates one of the
six validation conditions; whenever it raises, the history's state is
exactly as before the call (every `throw` precedes the first assignment);
and the raised error identifies the first violated condition in the
*code's* check order: conditions 1–3 in the listed order, then the entries
scanned in order, each checked for objectness and then its `start`,
`oldText`, `newText` fields (so a field error in an earlier entry is
reported before an objectness error in a later one), and the cursor-range
condition last. -/
theorem import_validation_spec (h : History) (d : JSValue) :
    ((∃ h', h.importJS d = .ok h') ↔ validData d = true) ∧
    (∀ m, h.importJS d = .error m ↔ importFirstError d = some m) ∧
    ((h.importRun d).2.isSome → (h.importRun d).1 = h) := by
  refine ⟨?_, ?_, ?_⟩
  · rw [importJS_eq h d, ← importFirstError_none_iff]
    cases importFirstError d with
    | some m => simp
    | none => simp
  · intro m
    rw [importJS_eq h d]
    cases importFirstError d with
    | some m' => simp
    | none => simp
  · unfold History.importRun
    cases h.importJS d with
    | ok h' => simp
    | error m => simp

/-- Witness for C1's amended theorem at a concrete input (an invalid
cursor-range payload: error raised, state untouched). -/
theorem import_validation_spec_witness :
    ((History.new 0).importJS (.obj [("cursor", .num (some 4)),
        ("entries", .arr [])]) = .error "Cursor is too far" ↔
      importFirstError (.obj [("cursor", .num (some 4)), ("entries", .arr [])]) =
        some "Cursor is too far") ∧
    (((History.new 0).importRun (.obj [("cursor", .num (some 4)),
        ("entries", .arr [])])).2.isSome →
      ((History.new 0).importRun (.obj [("cursor", .num (some 4)),
        ("entries", .arr [])])).1 = History.new 0) :=
  ⟨(import_validation_spec (History.new 0) _).2.1 "Cursor is too far",
    (import_validation_spec (History.new 0) _).2.2⟩

/-- C1 counterexample: for
`{cursor: 0, entries: [{start: "x", oldText: "", newText: ""}, null]}`
conditions 1–3 are satisfied and condition 4 of the listed order is
violated (the second entry is `null`), so the claim predicts the
`InvalidEntry` error (`'An entry is not a valid object'`); but the code
scans entry by entry and raises the condition-5 error
`'An entry start is not a number'` for the first entry instead. -/
theorem import_error_order_counterexample :
    isObjV (JSValue.obj [("cursor", .num (some 0)),
      ("entries", .arr [.obj [("start", .str ['x']), ("oldText", .str []),
        ("newText", .str [])], .null])]) = true ∧
    isNumberV (getProp (JSValue.obj [("cursor", .num (some 0)),
      ("entries", .arr [.obj [("start", .str ['x']), ("oldText", .str []),
        ("newText", .str [])], .null])]) "cursor") = true ∧
    isArrayV (getProp (JSValue.obj [("cursor", .num (some 0)),
      ("entries", .arr [.obj [("start", .str ['x']), ("oldText", .str []),
        ("newText", .str [])], .null])]) "entries") = true ∧
    (entriesOf (JSValue.obj [("cursor", .num (some 0)),
      ("entries", .arr [.obj [("start", .str ['x']), ("oldText", .str []),
        ("newText", .str [])], .null])])).any (fun e => !isObjV e) = true ∧
    (History.new 0).importJS (JSValue.obj [("cursor", .num (some 0)),
      ("entries", .arr [.obj [("start", .str ['x']), ("oldText", .str []),
        ("newText", .str [])], .null])]) =
      .error "An entry start is not a number" ∧
    "An entry start is not a number" ≠ "An entry is not a valid object" := by
  refine ⟨rfl, rfl, rfl, rfl, rfl, by decide⟩

/-! ## C6: invariant preservation of the mutating operations -/

theorem toInt32_small (q : ℚ) (h0 : 0 ≤ q) (h1 : q < 2 ^ 31) :
    toInt32 (some q) = ⌊q⌋ := by
  simp only [toInt32, ratTrunc]
  rw [if_pos h0]
  have hf0 : 0 ≤ ⌊q⌋ := Int.floor_nonneg.2 h0
  have hf1 : ⌊q⌋ < 2 ^ 31 := by
    rw [Int.floor_lt]
    exact lt_of_lt_of_le h1 (by norm_num)
  rw [Int.emod_eq_of_lt (by omega) (by omega)]
  omega

/-- C6 counterexample: a fresh history with limit 1 satisfies the
invariants, yet importing a valid payload with two entries succeeds and
leaves `entries.length = 2 > limit = 1`: `import` never applies the
limit. -/
theorem import_limit_counterexample :
    HistoryInv ⟨0, [], 1⟩ ∧
    History.importJS ⟨0, [], 1⟩ (.obj [("cursor", .num (some 0)),
      ("entries", .arr [.obj [("start", .num (some 4)), ("oldText", .str []),
          ("newText", .str [])],
        .obj [("start", .num (some 4)), ("oldText", .str []),
          ("newText", .str [])]])]) =
      .ok ⟨0, [⟨some 4, [], []⟩, ⟨some 4, [], []⟩], 1⟩ ∧
    ¬ HistoryInv ⟨0, [⟨some 4, [], []⟩, ⟨some 4, [], []⟩], 1⟩ := by
  refine ⟨by decide, rfl, by decide⟩

/-- C6 amended: on a history with positive limit satisfying
`0 ≤ cursor ≤ entries.length` and `entries.length ≤ limit`, the operations
`add`, `undo`, `redo` and `reset` preserve both invariants; a successful
`import` guarantees `0 ≤ cursor ≤ entries.length` whenever the imported
cursor is NaN or below `2^31` (the `| 0` truncation wraps above that), but
it does not enforce `entries.length ≤ limit`, which it can violate (see the
counterexample). -/
theorem history_invariants (h : History) (p : Entry) (t : Buffer)
    (hL : 1 ≤ h.limit) :
    (HistoryInv h → HistoryInv (h.add p)) ∧
    (HistoryInv h → HistoryInv (h.undo t).1) ∧
    (HistoryInv h → HistoryInv (h.redo t).1) ∧
    HistoryInv h.reset ∧
    (∀ (d : JSValue) (h' : History), h.importJS d = .ok h' →
      (∀ q : ℚ, cursorNumOf d = some q → q < 2 ^ 31) →
      0 ≤ h'.cursor ∧ h'.cursor ≤ h'.entries.length) := by
  refine ⟨?_, ?_, ?_, ?_, ?_⟩
  · rintro ⟨hc0, hcl, hll⟩
    obtain ⟨hlt, hge, hcpos, hlen, -⟩ := add_spec h p hc0 hcl hL
    have hstage : (addStage1 h p).length = h.cursor.toNat + 1 := by
      unfold addStage1
      simp [List.length_take]
      omega
    have hlim : (h.add p).limit = h.limit := by
      simp only [History.add]
      split <;> rfl
    by_cases hcase : h.limit ≤ ((addStage1 h p).length : Int)
    · have hc' : (h.add p).cursor = h.limit := by rw [hge hcase]
      refine ⟨?_, ?_, ?_⟩ <;> omega
    · have hc' : (h.add p).cursor = h.cursor + 1 := by rw [hlt (by omega)]
      refine ⟨?_, ?_, ?_⟩ <;> omega
  · rintro ⟨hc0, hcl, hll⟩
    have hundo : (h.undo t).1 =
        (if 0 < h.cursor then ⟨h.cursor - 1, h.entries, h.limit⟩ else h) := by
      unfold History.undo
      split <;> rfl
    by_cases hpos : 0 < h.cursor
    · rw [hundo, if_pos hpos]
      refine ⟨?_, ?_, ?_⟩ <;> (try simp) <;> omega
    · rw [hundo, if_neg hpos]
      exact ⟨hc0, hcl, hll⟩
  · rintro ⟨hc0, hcl, hll⟩
    have hredo : (h.redo t).1 =
        (if h.cursor < h.entries.length then ⟨h.cursor + 1, h.entries, h.limit⟩
          else h) := by
      unfold History.redo
      split <;> rfl
    by_cases hpos : h.cursor < h.entries.length
    · rw [hredo, if_pos hpos]
      refine ⟨?_, ?_, ?_⟩ <;> (try simp) <;> omega
    · rw [hredo, if_neg hpos]
      exact ⟨hc0, hcl, hll⟩
  · exact ⟨le_refl 0, by simp [History.reset],
      by unfold History.reset; simp; omega⟩
  · intro d h' hok hsmall
    rw [importJS_eq h d] at hok
    cases hfe : importFirstError d with
    | some m => rw [hfe] at hok; exact absurd hok (by simp)
    | none =>
      rw [hfe] at hok
      simp only [Except.ok.injEq] at hok
      have hvalid : validData d = true := (importFirstError_none_iff d).1 hfe
      unfold validData at hvalid
      simp only [Bool.and_eq_true] at hvalid
      have hrange : cursorOutOfRange d = false := by
        have hb := hvalid.2
        simp only [Bool.not_eq_true'] at hb
        exact hb
      unfold cursorOutOfRange at hrange
      rw [Bool.or_eq_false_iff] at hrange
      rw [← hok]
      simp only [List.length_map]
      cases hc : cursorNumOf d with
      | none =>
        rw [hc] at hrange
        exact ⟨le_refl 0, Int.natCast_nonneg _⟩
      | some q =>
        rw [hc] at hrange
        have hq0 : 0 ≤ q := by
          have h1 := hrange.1
          simp only [jlt, decide_eq_false_iff_not, not_lt] at h1
          exact h1
        have hqle : q ≤ ((entriesOf d).length : ℚ) := by
          have h2 := hrange.2
          simp only [jgt, jofNat, decide_eq_false_iff_not, not_lt] at h2
          exact h2
        rw [toInt32_small q hq0 (hsmall q hc)]
        constructor
        · exact Int.floor_nonneg.2 hq0
        · calc ⌊q⌋ ≤ ⌊((entriesOf d).length : ℚ)⌋ := Int.floor_le_floor hqle
            _ = ((entriesOf d).length : Int) := Int.floor_natCast _

/-- Witness for C6's amended theorem at concrete inputs. -/
theorem history_invariants_witness :
    (1 : Int) ≤ (History.new 5).limit ∧
    HistoryInv (History.new 5) ∧
    HistoryInv ((History.new 5).add ⟨some 4, [], []⟩) :=
  ⟨by decide, by decide,
    (history_invariants (History.new 5) ⟨some 4, [], []⟩
      ⟨[], some 0, some 0⟩ (by decide)).1 (by decide)⟩

/-! ## C7: import/export round trip -/

theorem jsToEntry_entryToJS (e : Entry) : jsToEntry (entryToJS e) = e := rfl

theorem validateEntry_entryToJS (e : Entry) : validateEntry (entryToJS e) = none := rfl

theorem validateEntries_map_entryToJS (es : List Entry) :
    validateEntries (es.map entryToJS) = none := by
  induction es with
  | nil => rfl
  | cons e rest ih =>
    simp only [List.map_cons, validateEntries, validateEntry_entryToJS]
    exact ih

theorem importJS_mkExport (h : History) (c : Int) (es : List Entry)
    (hc0 : 0 ≤ c) (hcl : c ≤ es.length) :
    h.importJS (mkExport c es) = .ok ⟨toInt32 (some (c : ℚ)), es, h.limit⟩ := by
  have hc : getProp (mkExport c es) "cursor" = .num (some (c : ℚ)) := by
    unfold mkExport
    exact getProp_obj_hit _ _ _
  have he : getProp (mkExport c es) "entries" = .arr (es.map entryToJS) := by
    unfold mkExport
    rw [getProp_obj_miss _ _ _ _ (by decide)]
    exact getProp_obj_hit _ _ _
  have hobj : isObjV (mkExport c es) = true := rfl
  have hjlt : jlt (some (c : ℚ)) (some 0) = false := by
    simp only [jlt, decide_eq_false_iff_not, not_lt]
    exact_mod_cast hc0
  have hjgt : jgt (some (c : ℚ)) (jofNat (es.map entryToJS).length) = false := by
    simp only [jgt, jofNat, decide_eq_false_iff_not, not_lt, List.length_map]
    exact_mod_cast hcl
  simp only [History.importJS, hobj, Bool.not_true, Bool.false_eq_true, if_false,
    hc, he, validateEntries_map_entryToJS, hjlt, hjgt, Bool.or_false,
    not_false_eq_true, not_true_eq_false]
  simp only [List.map_map]
  rw [show es.map (jsToEntry ∘ entryToJS) = es.map id from
    List.map_congr_left fun e _ => jsToEntry_entryToJS e, List.map_id]

/-- C7 amended: for a valid exported value `{cursor, entries}` whose integer
cursor additionally satisfies `cursor < 2^31`, `import` followed by `export`
returns a deep-equal structure.  (Without the bound, `cursor | 0` wraps;
see the counterexample.) -/
theorem import_export_round_trip (h : History) (c : Int) (es : List Entry)
    (hc0 : 0 ≤ c) (hcl : c ≤ es.length) (hsmall : c < 2 ^ 31) :
    h.importJS (mkExport c es) = .ok ⟨c, es, h.limit⟩ ∧
    History.exportJS ⟨c, es, h.limit⟩ = mkExport c es := by
  constructor
  · rw [importJS_mkExport h c es hc0 hcl]
    have : toInt32 (some (c : ℚ)) = c := by
      rw [toInt32_small (c : ℚ) (by exact_mod_cast hc0)
        (by exact_mod_cast hsmall)]
      exact Int.floor_intCast c
    rw [this]
  · rfl

/-- Witness for C7's amended theorem at a concrete input. -/
theorem import_export_round_trip_witness :
    (0 : Int) ≤ 1 ∧
    (History.new 0).importJS (mkExport 1 [⟨some 4, [], ['a']⟩]) =
      .ok ⟨1, [⟨some 4, [], ['a']⟩], 5000⟩ :=
  ⟨by decide,
    (import_export_round_trip (History.new 0) 1 [⟨some 4, [], ['a']⟩]
      (by decide) (by decide) (by decide)).1⟩

/-- C7 counterexample: the exported value with `cursor = 2^31` over `2^31`
well-formed entries is valid in the claim's sense (`0 ≤ cursor ≤
entries.length`), but `cursor | 0` truncates to 32-bit two's complement:
the import stores cursor `-2^31`, and the subsequent export is not
deep-equal to the imported value. -/
theorem import_export_overflow_counterexample :
    (0 : Int) ≤ 2 ^ 31 ∧
    (2 ^ 31 : Int) ≤ (List.replicate (2 ^ 31) (⟨some 4, [], []⟩ : Entry)).length ∧
    (History.new 0).importJS
        (mkExport (2 ^ 31) (List.replicate (2 ^ 31) ⟨some 4, [], []⟩)) =
      .ok ⟨-(2 ^ 31), List.replicate (2 ^ 31) ⟨some 4, [], []⟩, 5000⟩ ∧
    History.exportJS ⟨-(2 ^ 31), List.replicate (2 ^ 31) ⟨some 4, [], []⟩, 5000⟩ ≠
      mkExport (2 ^ 31) (List.replicate (2 ^ 31) ⟨some 4, [], []⟩) := by
  refine ⟨by norm_num, by rw [List.length_replicate]; norm_num, ?_, ?_⟩
  · rw [importJS_mkExport (History.new 0) (2 ^ 31)
      (List.replicate (2 ^ 31) ⟨some 4, [], []⟩) (by norm_num)
      (by rw [List.length_replicate]; norm_num)]
    have h32 : toInt32 (some ((2 ^ 31 : Int) : ℚ)) = -(2 ^ 31) := by
      simp only [toInt32, ratTrunc]
      rw [if_pos (by positivity), Int.floor_intCast]
      omega
    rw [h32]
    rfl
  · intro hcontr
    unfold History.exportJS mkExport at hcontr
    simp only [JSValue.obj.injEq, List.cons.injEq, Prod.mk.injEq,
      JSValue.num.injEq, Option.some.injEq] at hcontr
    have hcast := Option.some.inj hcontr.1.2
    rw [Int.cast_inj] at hcast
    omega

/-! ## C3: undo/redo inverse for the orchestration flow -/

theorem toIntOr0_jofNat (n : Nat) : toIntOr0 (jofNat n) = (n : Int) := by
  simp only [toIntOr0, jofNat, ratTrunc]
  rw [if_pos (by positivity)]
  exact Int.floor_natCast n

theorem jadd_jofNat (a b : Nat) (n : JSNum) (hn : n = jofNat a) :
    jadd n (jofNat b) = jofNat (a + b) := by
  subst hn
  simp only [jadd, jofNat]
  push_cast
  rfl

theorem jsSubstring_nat (s : List Char) (a b : Nat) (hab : a ≤ b)
    (hb : b ≤ s.length) :
    jsSubstring s (jofNat a) (jofNat b) = (s.take b).drop a := by
  simp only [jsSubstring, toIntOr0_jofNat]
  have ha' : (max ((a : Int)) 0).toNat ⊓ s.length = a := by omega
  have hb' : (max ((b : Int)) 0).toNat ⊓ s.length = b := by omega
  rw [ha', hb', Nat.max_eq_right hab, Nat.min_eq_left hab]

theorem jsSubstring_zero_nat (s : List Char) (st : Nat) (h : st ≤ s.length) :
    jsSubstring s (jofNat 0) (jofNat st) = s.take st := by
  rw [jsSubstring_nat s 0 st (Nat.zero_le st) h, List.drop_zero]

theorem jsSubstringFrom_nat (s : List Char) (e : Nat) (he : e ≤ s.length) :
    jsSubstringFrom s (jofNat e) = s.drop e := by
  unfold jsSubstringFrom
  rw [jsSubstring_nat s e s.length he (le_refl _), List.take_length]

theorem apply_value_of_applies (p : Entry) (s : List Char) (st : Nat)
    (a b : JSNum) (hstart : p.start = jofNat st)
    (hle : st + p.oldText.length ≤ s.length) :
    (History.apply p ⟨s, a, b⟩).value =
      s.take st ++ p.newText ++ s.drop (st + p.oldText.length) := by
  show jsSubstring s (jofNat 0) p.start ++ p.newText ++
    jsSubstringFrom s (jadd p.start (jofNat p.oldText.length)) = _
  rw [hstart, jadd_jofNat st p.oldText.length _ rfl,
    jsSubstring_zero_nat s st (by omega),
    jsSubstringFrom_nat s (st + p.oldText.length) hle]

theorem apply_value_congr (p : Entry) (B B' : Buffer)
    (h : B.value = B'.value) :
    (History.apply p B).value = (History.apply p B').value := by
  have h1 : (History.apply p B).value =
      (History.apply p ⟨B.value, none, none⟩).value := rfl
  have h2 : (History.apply p B').value =
      (History.apply p ⟨B'.value, none, none⟩).value := rfl
  rw [h1, h2, h]

theorem applyRev_value_restores (p : Entry) (s : List Char) (st : Nat)
    (B : Buffer) (hstart : p.start = jofNat st)
    (hle : st + p.oldText.length ≤ s.length)
    (hold : (s.drop st).take p.oldText.length = p.oldText)
    (hBv : B.value = (History.apply p ⟨s, none, none⟩).value) :
    (History.applyRev p B).value = s := by
  have hstep : (History.applyRev p B).value =
      (History.applyRev p ⟨B.value, none, none⟩).value := rfl
  rw [hstep, hBv, apply_value_of_applies p s st none none hstart hle]
  have htakelen : (s.take st).length = st := by
    rw [List.length_take]
    omega
  have hvlen : (s.take st ++ p.newText ++ s.drop (st + p.oldText.length)).length =
      st + p.newText.length + (s.length - (st + p.oldText.length)) := by
    simp [htakelen]
    omega
  show jsSubstring _ (jofNat 0) p.start ++ p.oldText ++
    jsSubstringFrom _ (jadd p.start (jofNat p.newText.length)) = s
  rw [hstart, jadd_jofNat st p.newText.length _ rfl,
    jsSubstring_zero_nat _ st (by rw [hvlen]; omega),
    jsSubstringFrom_nat _ (st + p.newText.length) (by rw [hvlen]; omega)]
  have hfront : (s.take st ++ p.newText ++ s.drop (st + p.oldText.length)).take st
      = s.take st := by
    rw [List.append_assoc]
    exact List.take_left' htakelen
  have hback : (s.take st ++ p.newText ++ s.drop (st + p.oldText.length)).drop
      (st + p.newText.length) = s.drop (st + p.oldText.length) := by
    have hlen2 : (s.take st ++ p.newText).length = st + p.newText.length := by
      simp [htakelen]
    exact List.drop_left' hlen2
  rw [hfront, hback]
  have hdropdrop : (s.drop st).drop p.oldText.length =
      s.drop (st + p.oldText.length) := by
    rw [List.drop_drop]
  calc s.take st ++ p.oldText ++ s.drop (st + p.oldText.length)
      = s.take st ++ ((s.drop st).take p.oldText.length ++
          (s.drop st).drop p.oldText.length) := by
        rw [hold, hdropdrop, List.append_assoc]
    _ = s.take st ++ s.drop st := by rw [List.take_append_drop]
    _ = s := List.take_append_drop st s

theorem record_buffer (ps : List Entry) : ∀ (h : History) (b : Buffer),
    (record h ps b).2 = applyAll ps b := by
  induction ps with
  | nil => intro h b; rfl
  | cons p ps' ih =>
    intro h b
    simp only [record, applyAll]
    exact ih _ _

theorem add_at_end (h : History) (p : Entry)
    (hcur : h.cursor = h.entries.length)
    (hlim : (h.entries.length : Int) + 1 ≤ h.limit) :
    h.add p = ⟨(h.entries.length : Int) + 1, h.entries ++ [p], h.limit⟩ := by
  have hc0 : 0 ≤ h.cursor := by omega
  have hL : 1 ≤ h.limit := by omega
  obtain ⟨hlt, hge, -, -, -⟩ := add_spec h p hc0 (by omega) hL
  have htn : h.cursor.toNat = h.entries.length := by omega
  have hstage : addStage1 h p = h.entries ++ [p] := by
    unfold addStage1
    rw [htn, List.take_length]
  have hstageLen : ((addStage1 h p).length : Int) = (h.entries.length : Int) + 1 := by
    rw [hstage]
    simp
  by_cases hc : ((addStage1 h p).length : Int) < h.limit
  · rw [hlt hc, hstage, hcur]
  · have hgec : h.limit ≤ ((addStage1 h p).length : Int) := by omega
    rw [hge hgec, hstage]
    have hsl : ((h.entries ++ [p]).length : Int) = (h.entries.length : Int) + 1 := by
      rw [← hstage]
      exact hstageLen
    have hg2 : h.limit ≤ ((h.entries ++ [p]).length : Int) := by
      rw [← hstage]
      exact hgec
    have hzero : (h.entries ++ [p]).length - h.limit.toNat = 0 := by omega
    rw [hzero, List.drop_zero]
    have hlimeq : h.limit = (h.entries.length : Int) + 1 := by omega
    rw [hlimeq]

theorem record_history (ps : List Entry) : ∀ (h : History) (b : Buffer),
    h.cursor = h.entries.length →
    (h.entries.length : Int) + ps.length ≤ h.limit →
    (record h ps b).1 =
      ⟨(h.entries.length : Int) + ps.length, h.entries ++ ps, h.limit⟩ := by
  induction ps with
  | nil =>
    intro h b hcur hlim
    simp only [record]
    cases h with
    | mk c e l =>
      simp only at hcur
      simp [hcur]
  | cons p ps' ih =>
    intro h b hcur hlim
    simp only [record]
    have hlimI : (h.entries.length : Int) + ((ps'.length : Int) + 1) ≤ h.limit := by
      simp only [List.length_cons] at hlim
      push_cast at hlim
      omega
    have hlim1 : (h.entries.length : Int) + 1 ≤ h.limit := by omega
    have hadd := add_at_end h p hcur hlim1
    have hce : (h.add p).cursor = (h.entries.length : Int) + 1 := by rw [hadd]
    have hee : (h.add p).entries = h.entries ++ [p] := by rw [hadd]
    have hle' : (h.add p).limit = h.limit := by rw [hadd]
    have ihres := ih (h.add p) (History.apply p b)
      (by rw [hce, hee]
          simp only [List.length_append, List.length_singleton, List.length_nil, List.length_cons]
          push_cast
          ring)
      (by rw [hee, hle']
          simp only [List.length_append, List.length_singleton, List.length_nil, List.length_cons]
          push_cast
          omega)
    rw [ihres, hee, hle']
    congr 1
    · simp only [List.length_append, List.length_singleton, List.length_nil, List.length_cons]
      push_cast
      ring
    · simp

theorem undo_eq (h : History) (t : Buffer) (hpos : 0 < h.cursor) :
    h.undo t = (⟨h.cursor - 1, h.entries, h.limit⟩,
      History.applyRev (h.entries.getD (h.cursor - 1).toNat Entry.dummy) t) := by
  unfold History.undo
  rw [if_pos hpos]

theorem redo_eq (h : History) (t : Buffer)
    (hpos : h.cursor < h.entries.length) :
    h.redo t = (⟨h.cursor + 1, h.entries, h.limit⟩,
      History.apply (h.entries.getD h.cursor.toNat Entry.dummy) t) := by
  unfold History.redo
  rw [if_pos hpos]

theorem undoN_restore (ps : List Entry) : ∀ (h : History) (E0 : List Entry)
    (b B : Buffer),
    h.cursor = (E0.length : Int) + ps.length →
    h.entries = E0 ++ ps →
    AppliesAll ps b.value →
    B.value = (applyAll ps b).value →
    (undoN h B ps.length).1 = ⟨(E0.length : Int), h.entries, h.limit⟩ ∧
    (undoN h B ps.length).2.value = b.value := by
  induction ps with
  | nil =>
    intro h E0 b B hcur hent happ hBv
    constructor
    · simp only [List.length_nil, undoN]
      cases h with
      | mk c e l =>
        simp only at hcur
        simp only [List.length_nil, Nat.cast_zero, add_zero] at hcur
        simp [History.mk.injEq, hcur]
    · simpa [undoN, applyAll] using hBv
  | cons p ps' ih =>
    intro h E0 b B hcur hent happ hBv
    obtain ⟨hap, haps⟩ := happ
    have haps' : AppliesAll ps' (History.apply p b).value := haps
    have hBv' : B.value = (applyAll ps' (History.apply p b)).value := hBv
    obtain ⟨ih1, ih2⟩ := ih h (E0 ++ [p]) (History.apply p b) B
      (by rw [hcur]
          simp only [List.length_append, List.length_singleton, List.length_nil, List.length_cons]
          push_cast
          ring)
      (by rw [hent]; simp) haps' hBv'
    rw [show (p :: ps').length = ps'.length + 1 from rfl]
    simp only [undoN]
    have hUc : (undoN h B ps'.length).1.cursor = ((E0 ++ [p]).length : Int) := by
      rw [ih1]
    have hUe : (undoN h B ps'.length).1.entries = h.entries := by rw [ih1]
    have hUl : (undoN h B ps'.length).1.limit = h.limit := by rw [ih1]
    have hpos : 0 < (undoN h B ps'.length).1.cursor := by
      rw [hUc]
      simp only [List.length_append, List.length_singleton, List.length_nil, List.length_cons]
      push_cast
      omega
    have hstep := undo_eq (undoN h B ps'.length).1 (undoN h B ps'.length).2 hpos
    rw [hstep, hUc, hUe, hUl]
    have hc1 : (((E0 ++ [p]).length : Int) - 1).toNat = E0.length := by
      simp only [List.length_append, List.length_singleton, List.length_nil, List.length_cons]
      omega
    have hget : h.entries.getD ((((E0 ++ [p]).length : Int) - 1).toNat)
        Entry.dummy = p := by
      rw [hc1, hent]
      rw [show E0 ++ p :: ps' = (E0 ++ [p]) ++ ps' from by simp]
      rw [List.getD_append _ _ _ _ (by simp)]
      rw [List.getD_append_right _ _ _ _ (le_refl _)]
      simp
    rw [hget]
    constructor
    · show (⟨((E0 ++ [p]).length : Int) - 1, h.entries, h.limit⟩ : History) = _
      congr 1
      simp only [List.length_append, List.length_singleton, List.length_nil, List.length_cons]
      push_cast
      ring
    · show (History.applyRev p (undoN h B ps'.length).2).value = b.value
      obtain ⟨st, hst, hle, hold⟩ := hap
      exact applyRev_value_restores p b.value st (undoN h B ps'.length).2 hst hle
        hold (by rw [ih2]; rfl)

theorem redoN_replay (ps : List Entry) : ∀ (h : History) (E0 Er : List Entry)
    (b B : Buffer),
    h.cursor = (E0.length : Int) →
    h.entries = E0 ++ ps ++ Er →
    B.value = b.value →
    (redoN h B ps.length).1 =
      ⟨(E0.length : Int) + ps.length, h.entries, h.limit⟩ ∧
    (redoN h B ps.length).2.value = (applyAll ps b).value := by
  induction ps with
  | nil =>
    intro h E0 Er b B hcur hent hBv
    constructor
    · simp only [List.length_nil, redoN]
      cases h with
      | mk c e l =>
        simp only at hcur
        simp [History.mk.injEq, hcur]
    · simpa [redoN, applyAll] using hBv
  | cons p ps' ih =>
    intro h E0 Er b B hcur hent hBv
    have hlen : (E0.length : Int) < (h.entries.length : Int) := by
      rw [hent]
      simp only [List.length_append, List.length_cons]
      push_cast
      omega
    have hget : h.entries.getD h.cursor.toNat Entry.dummy = p := by
      rw [hcur, hent]
      have : (((E0.length : Int)).toNat) = E0.length := by omega
      rw [this]
      rw [show E0 ++ (p :: ps') ++ Er = E0 ++ ((p :: ps') ++ Er) from by simp]
      rw [List.getD_append_right _ _ _ _ (le_refl _)]
      simp
    have hredo : h.redo B = (⟨h.cursor + 1, h.entries, h.limit⟩,
        History.apply p B) := by
      unfold History.redo
      rw [if_pos (by omega), hget]
    rw [show (p :: ps').length = ps'.length + 1 from rfl]
    simp only [redoN]
    rw [hredo]
    obtain ⟨ih1, ih2⟩ := ih ⟨h.cursor + 1, h.entries, h.limit⟩ (E0 ++ [p]) Er
      (History.apply p b) (History.apply p B)
      (by simp only [hcur]; simp)
      (by simp only [hent]; simp)
      (apply_value_congr p B b hBv)
    constructor
    · rw [ih1]
      congr 1
      simp only [List.length_append, List.length_singleton, List.length_nil,
        List.length_cons]
      push_cast
      ring
    · rw [ih2]
      rfl

/-- C3 amended: for any buffer and any patch sequence in which every patch
is applicable where it is applied (its `oldText` is exactly the buffer text
at its `start`, as the orchestrator's `edit` guarantees by construction),
with the patch count within the history limit, running the §2 flow
(`add` then apply forward, patch by patch) from a fresh history and then
undoing `n` times restores the original buffer text, and redoing `n` times
after that restores the post-sequence text.  (For a patch whose `oldText`
does not match the buffer, undo is not an inverse; see the
counterexample.) -/
theorem undo_redo_inverse (L : Int) (ps : List Entry) (b : Buffer)
    (happ : AppliesAll ps b.value) (hlim : (ps.length : Int) ≤ L) :
    (undoN (record ⟨0, [], L⟩ ps b).1 (record ⟨0, [], L⟩ ps b).2
        ps.length).2.value = b.value ∧
    (redoN (undoN (record ⟨0, [], L⟩ ps b).1 (record ⟨0, [], L⟩ ps b).2
          ps.length).1
        (undoN (record ⟨0, [], L⟩ ps b).1 (record ⟨0, [], L⟩ ps b).2
          ps.length).2 ps.length).2.value =
      (record ⟨0, [], L⟩ ps b).2.value := by
  have hrh := record_history ps ⟨0, [], L⟩ b rfl (by simpa using hlim)
  simp only [List.length_nil, Nat.cast_zero, List.nil_append, zero_add] at hrh
  have hrb := record_buffer ps ⟨0, [], L⟩ b
  obtain ⟨hu1, hu2⟩ := undoN_restore ps (record ⟨0, [], L⟩ ps b).1 [] b
    (record ⟨0, [], L⟩ ps b).2
    (by simp [hrh]) (by simp [hrh]) happ (by rw [hrb])
  have hu1' : (undoN (record ⟨0, [], L⟩ ps b).1 (record ⟨0, [], L⟩ ps b).2
      ps.length).1 = ⟨0, ps, L⟩ := by
    rw [hu1, hrh]
    simp
  refine ⟨hu2, ?_⟩
  obtain ⟨-, hr2⟩ := redoN_replay ps
    (undoN (record ⟨0, [], L⟩ ps b).1 (record ⟨0, [], L⟩ ps b).2 ps.length).1
    [] [] b
    (undoN (record ⟨0, [], L⟩ ps b).1 (record ⟨0, [], L⟩ ps b).2 ps.length).2
    (by simp [hu1']) (by simp [hu1']) hu2
  rw [hr2, hrb]

/-- Witness for C3's amended theorem at a concrete input. -/
theorem undo_redo_inverse_witness :
    AppliesAll [⟨some 0, ['a'], ['b']⟩] (Buffer.mk ['a'] (some 0) (some 0)).value ∧
    (undoN (record ⟨0, [], 5000⟩ [⟨some 0, ['a'], ['b']⟩]
          ⟨['a'], some 0, some 0⟩).1
        (record ⟨0, [], 5000⟩ [⟨some 0, ['a'], ['b']⟩]
          ⟨['a'], some 0, some 0⟩).2 1).2.value = ['a'] := by
  have happ : AppliesAll [⟨some 0, ['a'], ['b']⟩]
      (Buffer.mk ['a'] (some 0) (some 0)).value :=
    ⟨⟨0, by simp [jofNat], by decide, rfl⟩, trivial⟩
  exact ⟨happ,
    (undo_redo_inverse 5000 [⟨some 0, ['a'], ['b']⟩] ⟨['a'], some 0, some 0⟩
      happ (by decide)).1⟩

/-- C3 counterexample: over the buffer `"abc"`, the single patch
`{start: 0, oldText: "zz", newText: "Q"}` (whose `oldText` does not occur at
`start`) is added and applied — giving `"Qc"` — but one undo yields
`"zzc"`, not the original `"abc"`: the claim fails for arbitrary patch
sequences. -/
theorem undo_not_inverse_counterexample :
    (undoN (record ⟨0, [], 5000⟩ [⟨some 0, ['z', 'z'], ['Q']⟩]
          ⟨['a', 'b', 'c'], some 0, some 0⟩).1
        (record ⟨0, [], 5000⟩ [⟨some 0, ['z', 'z'], ['Q']⟩]
          ⟨['a', 'b', 'c'], some 0, some 0⟩).2 1).2.value ≠
      ['a', 'b', 'c'] := by
  decide

end Pinguim
